import Mathlib

/-!
Shallow embedding of the two resource managers of the repository
(`kernel/kalloc.c`, the per-CPU physical page allocator, and
`kernel/bio.c`, the hash-bucketed block cache), together with proofs of
the specification claims about them.

Machine integers (`uint`) are modelled as `Nat` with explicit `% 2^32`
where overflow can matter (reference counts).  Memory is modelled as a
byte map `Nat → Nat`.  Fatal `panic` paths are modelled by returning
`none`.  The code is sequential (locks are elided; the sleep-lock of a
buffer is modelled by a `held` flag, standing for "held by the caller").
-/

namespace OSLab

/-- `2^32`, the modulus of the C `uint` type. -/
def U32 : Nat := 4294967296

/-- Page size, `PGSIZE` from `riscv.h` (4096 bytes). -/
def PGSIZE : Nat := 4096

/-! ## Byte-level memory primitives -/

/-- `memset(a, v, n)` on a byte map: bytes `a ≤ x < a + n` become `v`. -/
def memset (m : Nat → Nat) (a v n : Nat) : Nat → Nat :=
  fun x => if a ≤ x ∧ x < a + n then v else m x

/-- Store of a 64-bit value (a pointer on RV64) at address `a`,
little-endian: the 8 bytes `a ≤ x < a + 8` receive the bytes of `v`. -/
def store64 (m : Nat → Nat) (a v : Nat) : Nat → Nat :=
  fun x => if a ≤ x ∧ x < a + 8 then (v >>> ((x - a) * 8)) % 256 else m x

/-! ## Page allocator (`kernel/kalloc.c`)

State: one free list per CPU (`kmems[NCPU]`), each a list of page
addresses (the head is `kmems[i].freelist`; the intrusive `run.next`
links are determined by the list and also written into memory by
`kfree`), plus the byte contents of physical memory. -/

structure KState where
  freelists : List (List Nat)
  mem : Nat → Nat

/-- The address value of the head of an intrusive free list
(`0` encodes the null pointer of an empty list). -/
def headAddr (l : List Nat) : Nat := l.headD 0

/-- `kfree(pa)` executed by CPU `cid`, with `end = endA` and
`PHYSTOP = phystop`: panics (`none`) if `pa` is not page aligned or
outside `[end, PHYSTOP)`; otherwise fills the page with the free-poison
byte `1`, writes the old free-list head into the page's first 8 bytes
(`r->next = kmems[cid].freelist`) and pushes `pa` on CPU `cid`'s list. -/
def kfree (endA phystop : Nat) (st : KState) (cid pa : Nat) : Option KState :=
  if pa % PGSIZE ≠ 0 ∨ pa < endA ∨ phystop ≤ pa then none
  else
    let m1 := memset st.mem pa 1 PGSIZE
    let fl := st.freelists.getD cid []
    let m2 := store64 m1 pa (headAddr fl)
    some { freelists := st.freelists.set cid (pa :: fl), mem := m2 }

/-- The steal loop of `kalloc`: `for (i = 0; i < NCPU; i++) if (i != cid) ...`,
trying to pop the head of another CPU's free list.  `i` is the current
index, `k` the number of indices still to visit. -/
def kallocSteal (st : KState) (cid : Nat) : Nat → Nat → Option (Nat × KState)
  | _, 0 => none
  | i, Nat.succ k =>
    if i = cid then kallocSteal st cid (i + 1) k
    else
      match st.freelists.getD i [] with
      | [] => kallocSteal st cid (i + 1) k
      | r :: rest => some (r, { st with freelists := st.freelists.set i rest })

/-- `kalloc()` executed by CPU `cid`: pop the head of the local free
list; if it is empty, scan the other CPUs' lists in ascending index
order; on success fill the page with the alloc-poison byte `5`.
Returns `(none, st)` (the C null return) when every list is empty. -/
def kalloc (NCPU : Nat) (st : KState) (cid : Nat) : Option Nat × KState :=
  match st.freelists.getD cid [] with
  | r :: rest =>
      let st1 : KState := { st with freelists := st.freelists.set cid rest }
      (some r, { st1 with mem := memset st1.mem r 5 PGSIZE })
  | [] =>
      match kallocSteal st cid 0 NCPU with
      | some (r, st1) => (some r, { st1 with mem := memset st1.mem r 5 PGSIZE })
      | none => (none, st)

/-! ## Generic list helper lemmas -/

theorem getD_set_self {α : Type} (l : List α) (i : Nat) (a d : α) (h : i < l.length) :
    (l.set i a).getD i d = a := by
  simp [List.getD, List.getElem?_set_self', h]

theorem getD_set_ne {α : Type} (l : List α) (i j : Nat) (a d : α) (h : i ≠ j) :
    (l.set i a).getD j d = l.getD j d := by
  simp [List.getD, List.getElem?_set_ne h]

/-! ## Characterization of the kalloc steal loop -/

theorem kallocSteal_succ (st : KState) (cid i k : Nat) :
    kallocSteal st cid i (k + 1) =
      if i = cid then kallocSteal st cid (i + 1) k
      else
        match st.freelists.getD i [] with
        | [] => kallocSteal st cid (i + 1) k
        | r :: rest => some (r, { st with freelists := st.freelists.set i rest }) := rfl

theorem kallocSteal_succ_skip (st : KState) (cid i k : Nat) (hic : i = cid) :
    kallocSteal st cid i (k + 1) = kallocSteal st cid (i + 1) k := by
  rw [kallocSteal_succ, if_pos hic]

theorem kallocSteal_succ_nil (st : KState) (cid i k : Nat) (hic : i ≠ cid)
    (hfl : st.freelists.getD i [] = []) :
    kallocSteal st cid i (k + 1) = kallocSteal st cid (i + 1) k := by
  rw [kallocSteal_succ, if_neg hic, hfl]

theorem kallocSteal_succ_cons (st : KState) (cid i k r : Nat) (rest : List Nat)
    (hic : i ≠ cid) (hfl : st.freelists.getD i [] = r :: rest) :
    kallocSteal st cid i (k + 1) =
      some (r, { st with freelists := st.freelists.set i rest }) := by
  rw [kallocSteal_succ, if_neg hic, hfl]

/-- The steal loop either fails, with every visited bucket empty, or
pops the head of the first (ascending order) non-empty foreign list. -/
theorem kallocSteal_spec (st : KState) (cid : Nat) (k i : Nat) :
    (kallocSteal st cid i k = none ∧
      ∀ i', i ≤ i' → i' < i + k → i' ≠ cid → st.freelists.getD i' [] = []) ∨
    (∃ i₀ r rest, i ≤ i₀ ∧ i₀ < i + k ∧ i₀ ≠ cid ∧
      st.freelists.getD i₀ [] = r :: rest ∧
      (∀ i', i ≤ i' → i' < i₀ → i' ≠ cid → st.freelists.getD i' [] = []) ∧
      kallocSteal st cid i k =
        some (r, { st with freelists := st.freelists.set i₀ rest })) := by
  induction k generalizing i with
  | zero => exact Or.inl ⟨rfl, fun i' h1 h2 _ => absurd (Nat.lt_of_le_of_lt h1 h2) (by omega)⟩
  | succ k ih =>
    by_cases hic : i = cid
    · rcases ih (i + 1) with ⟨hnone, hall⟩ | ⟨i₀, r, rest, h1, h2, h3, h4, h5, h6⟩
      · refine Or.inl ⟨by rw [kallocSteal_succ_skip st cid i k hic, hnone],
          fun i' hle hlt hne => ?_⟩
        have : i ≠ i' := fun h => hne (h ▸ hic)
        exact hall i' (by omega) (by omega) hne
      · refine Or.inr ⟨i₀, r, rest, by omega, by omega, h3, h4, fun i' hle hlt hne => ?_, ?_⟩
        · have : i ≠ i' := fun h => hne (h ▸ hic)
          exact h5 i' (by omega) hlt hne
        · rw [kallocSteal_succ_skip st cid i k hic, h6]
    · cases hfl : st.freelists.getD i [] with
      | nil =>
        rcases ih (i + 1) with ⟨hnone, hall⟩ | ⟨i₀, r, rest, h1, h2, h3, h4, h5, h6⟩
        · refine Or.inl ⟨by rw [kallocSteal_succ_nil st cid i k hic hfl, hnone],
            fun i' hle hlt hne => ?_⟩
          rcases Nat.eq_or_lt_of_le hle with h | h
          · exact h ▸ hfl
          · exact hall i' h (by omega) hne
        · refine Or.inr ⟨i₀, r, rest, by omega, by omega, h3, h4, fun i' hle hlt hne => ?_, ?_⟩
          · rcases Nat.eq_or_lt_of_le hle with h | h
            · exact h ▸ hfl
            · exact h5 i' h hlt hne
          · rw [kallocSteal_succ_nil st cid i k hic hfl, h6]
      | cons r rest =>
        exact Or.inr ⟨i, r, rest, Nat.le_refl i, by omega, hic, hfl,
          fun i' hle hlt _ => absurd (Nat.lt_of_le_of_lt hle hlt) (by omega),
          kallocSteal_succ_cons st cid i k r rest hic hfl⟩

/-! ## Unfolding lemmas for kalloc -/

theorem kalloc_local (NCPU : Nat) (st : KState) (cid r : Nat) (rest : List Nat)
    (hfl : st.freelists.getD cid [] = r :: rest) :
    kalloc NCPU st cid =
      (some r, { freelists := st.freelists.set cid rest,
                 mem := memset st.mem r 5 PGSIZE }) := by
  unfold kalloc
  rw [hfl]

theorem kalloc_steal_none (NCPU : Nat) (st : KState) (cid : Nat)
    (hfl : st.freelists.getD cid [] = [])
    (hnone : kallocSteal st cid 0 NCPU = none) :
    kalloc NCPU st cid = (none, st) := by
  unfold kalloc
  rw [hfl, hnone]

theorem kalloc_steal_some (NCPU : Nat) (st : KState) (cid r : Nat) (st1 : KState)
    (hfl : st.freelists.getD cid [] = [])
    (hsome : kallocSteal st cid 0 NCPU = some (r, st1)) :
    kalloc NCPU st cid = (some r, { st1 with mem := memset st1.mem r 5 PGSIZE }) := by
  unfold kalloc
  rw [hfl, hsome]

/-! ## Claim theorems for the page allocator -/

/-- The allocation policy claim C2 asserts of `kalloc`, as a predicate
on the call's inputs: the head frame of the caller's own partition is
popped when that list is non-empty; otherwise the first non-empty
partition in ascending index order (skipping the caller's) is popped;
the call yields `none` exactly when every partition is empty. -/
def KallocClaim (NCPU : Nat) (st : KState) (cid : Nat) : Prop :=
  ((kalloc NCPU st cid).1 = none ↔ ∀ i, i < NCPU → st.freelists.getD i [] = []) ∧
  (∀ r rest, st.freelists.getD cid [] = r :: rest →
    kalloc NCPU st cid =
      (some r, { freelists := st.freelists.set cid rest,
                 mem := memset st.mem r 5 PGSIZE })) ∧
  (∀ i₀ r rest, st.freelists.getD cid [] = [] → i₀ < NCPU → i₀ ≠ cid →
    st.freelists.getD i₀ [] = r :: rest →
    (∀ i', i' < i₀ → i' ≠ cid → st.freelists.getD i' [] = []) →
    kalloc NCPU st cid =
      (some r, { freelists := st.freelists.set i₀ rest,
                 mem := memset st.mem r 5 PGSIZE }))

/-- **C2**: `kalloc` pops the head of the calling CPU's own free list if
non-empty; otherwise it scans the remaining lists in ascending index
order and pops the head of the first non-empty one; it returns `none`
if and only if every CPU's free list is empty.  (The model is a total
function: it cannot block or retry.) -/
theorem C2_kalloc_policy (NCPU : Nat) (st : KState) (cid : Nat)
    (hlen : st.freelists.length = NCPU) (hcid : cid < NCPU) :
    KallocClaim NCPU st cid := by
  refine ⟨⟨fun hnone => ?_, fun hall => ?_⟩, fun r rest hfl => kalloc_local NCPU st cid r rest hfl, ?_⟩
  · intro i hi
    cases hcfl : st.freelists.getD cid [] with
    | cons r rest => rw [kalloc_local NCPU st cid r rest hcfl] at hnone; exact absurd hnone (by simp)
    | nil =>
      rcases kallocSteal_spec st cid NCPU 0 with ⟨_, hall⟩ | ⟨i₀, r, rest, _, h2, h3, h4, _, h6⟩
      · by_cases hicid : i = cid
        · exact hicid ▸ hcfl
        · exact hall i (Nat.zero_le i) (by omega) hicid
      · rw [kalloc_steal_some NCPU st cid r _ hcfl h6] at hnone
        exact absurd hnone (by simp)
  · cases hcfl : st.freelists.getD cid [] with
    | cons r rest => exact absurd hcfl (by rw [hall cid hcid]; simp)
    | nil =>
      rcases kallocSteal_spec st cid NCPU 0 with ⟨hnone, _⟩ | ⟨i₀, r, rest, _, h2, h3, h4, _, h6⟩
      · rw [kalloc_steal_none NCPU st cid hcfl hnone]
      · exact absurd h4 (by rw [hall i₀ (by omega)]; simp)
  · intro i₀ r rest hcfl hi₀ hi₀c hfl hmin
    rcases kallocSteal_spec st cid NCPU 0 with ⟨_, hall⟩ | ⟨i₁, r₁, rest₁, _, h2, h3, h4, h5, h6⟩
    · exact absurd hfl (by rw [hall i₀ (Nat.zero_le i₀) (by omega) hi₀c]; simp)
    · have hEq : i₁ = i₀ := by
        rcases Nat.lt_trichotomy i₁ i₀ with h | h | h
        · exact absurd h4 (by rw [hmin i₁ h h3]; simp)
        · exact h
        · exact absurd hfl (by rw [h5 i₀ (Nat.zero_le i₀) h hi₀c]; simp)
      subst hEq
      rw [hfl] at h4
      obtain ⟨rfl, rfl⟩ : r = r₁ ∧ rest = rest₁ := by
        injection h4 with h4a h4b; exact ⟨h4a, h4b⟩
      exact kalloc_steal_some NCPU st cid r _ hcfl h6

/-- Witness for C2 at a concrete two-CPU state (own partition empty,
partition 1 holds one frame). -/
theorem C2_kalloc_policy_witness :
    (([[], [8192]] : List (List Nat)).length = 2 ∧ 0 < 2) ∧
    KallocClaim 2 ⟨[[], [8192]], fun _ => 0⟩ 0 :=
  ⟨⟨rfl, by decide⟩, C2_kalloc_policy 2 ⟨[[], [8192]], fun _ => 0⟩ 0 rfl (by decide)⟩

/-! ## Block cache (`kernel/bio.c`)

A buffer carries the metadata of `struct buf` (the fixed-size data
payload is abstracted into a single `data : Nat`); `held` models the
buffer's sleep-lock being held by the caller.  The pool is `bufs`
(index = position in `bcache.buf[NBUF]`); `buckets` holds, for each of
the `NBUCKETS` hash buckets, the list of buffer indices on its circular
doubly-linked list, head first (`hashbucket[i].next` side first). -/

/-- Number of hash buckets, `#define NBUCKETS 13`. -/
def NBUCKETS : Nat := 13

structure Buf where
  dev : Nat
  blockno : Nat
  valid : Bool
  refcnt : Nat
  held : Bool
  data : Nat
deriving DecidableEq, Repr

/-- A buffer of the freshly zeroed pool (C global arrays are
zero-initialized). -/
def buf0 : Buf := { dev := 0, blockno := 0, valid := false, refcnt := 0, held := false, data := 0 }

instance : Inhabited Buf := ⟨buf0⟩

structure BCache where
  bufs : List Buf
  buckets : List (List Nat)
deriving DecidableEq, Repr

/-- The buffer with index `j` (out-of-range indices read as a zeroed
buffer, which has `refcnt = 0`). -/
def bufAt (st : BCache) (j : Nat) : Buf := st.bufs.getD j buf0

/-- Replace buffer `j`. -/
def setBuf (st : BCache) (j : Nat) (b : Buf) : BCache :=
  { st with bufs := st.bufs.set j b }

/-- The list of buffer indices of bucket `i`. -/
def bucketAt (st : BCache) (i : Nat) : List Nat := st.buckets.getD i []

/-- `b->dev == dev && b->blockno == blockno`, the lookup predicate of
the first scan of `bget`. -/
def isTag (st : BCache) (dev blockno j : Nat) : Bool :=
  (bufAt st j).dev == dev && (bufAt st j).blockno == blockno

/-- `b->refcnt == 0`, the recycling predicate of `bget`. -/
def isFree (st : BCache) (j : Nat) : Bool :=
  (bufAt st j).refcnt == 0

/-- `binit`: every bucket's circular list starts empty; each buffer `b`
of the pool is inserted at the head of bucket `b->blockno % NBUCKETS`
(all blocknos are zero in the freshly zeroed pool). -/
def binit (NBUF : Nat) : BCache :=
  { bufs := List.replicate NBUF buf0,
    buckets := (List.range NBUF).foldl
      (fun bks j => bks.set (buf0.blockno % NBUCKETS) (j :: bks.getD (buf0.blockno % NBUCKETS) []))
      (List.replicate NBUCKETS []) }

/-- First phase of `bget`, cache hit on buffer `j`: `b->refcnt++` (a
`uint` increment) and `acquiresleep(&b->lock)`. -/
def refHit (st : BCache) (j : Nat) : BCache :=
  let b := bufAt st j
  setBuf st j { b with refcnt := (b.refcnt + 1) % U32, held := true }

/-- Second phase of `bget`, recycling an unused buffer `j` of the home
bucket in place: retag to `(dev, blockno)`, clear `valid`, set
`refcnt = 1`, acquire the sleep-lock. -/
def retagLocal (st : BCache) (dev blockno j : Nat) : BCache :=
  let b := bufAt st j
  setBuf st j { b with dev := dev, blockno := blockno, valid := false, refcnt := 1, held := true }

/-- Third phase of `bget`: retag the unused buffer `j` found in foreign
bucket `i`, unlink it there (`b->next->prev = b->prev; b->prev->next =
b->next`) and splice it at the head of the home bucket of `blockno`. -/
def spliceRetag (st : BCache) (dev blockno i j : Nat) : BCache :=
  let bucketno := blockno % NBUCKETS
  let st1 := retagLocal st dev blockno j
  let bks1 := st1.buckets.set i ((st1.buckets.getD i []).erase j)
  { st1 with buckets := bks1.set bucketno (j :: bks1.getD bucketno []) }

/-- The eviction scan of `bget` over the foreign buckets:
`for (i = 0; i < NBUCKETS; i++) if (i != bucketno) ...`, scanning each
bucket's list from the tail (`prev` direction).  `i` is the current
index, `k` the number of indices still to visit; `none` is the
`panic("bget: no buffers")` outcome. -/
def stealBuf (st : BCache) (dev blockno bucketno : Nat) : Nat → Nat → Option (Nat × BCache)
  | _, 0 => none
  | i, Nat.succ k =>
    if i = bucketno then stealBuf st dev blockno bucketno (i + 1) k
    else
      match (bucketAt st i).reverse.find? (isFree st) with
      | some j => some (j, spliceRetag st dev blockno i j)
      | none => stealBuf st dev blockno bucketno (i + 1) k

/-- `bget(dev, blockno)`: scan the home bucket for the tag, then for an
unused buffer, then steal from the other buckets in ascending order;
`none` models `panic("bget: no buffers")`. -/
def bget (st : BCache) (dev blockno : Nat) : Option (Nat × BCache) :=
  let bucketno := blockno % NBUCKETS
  match (bucketAt st bucketno).find? (isTag st dev blockno) with
  | some j => some (j, refHit st j)
  | none =>
    match (bucketAt st bucketno).find? (isFree st) with
    | some j => some (j, retagLocal st dev blockno j)
    | none => stealBuf st dev blockno bucketno 0 NBUCKETS

/-- `bread(dev, blockno)`: `bget`, then if the buffer is not valid, one
device read (`virtio_disk_rw(b, 0)`, the disk modelled as the map
`disk : dev → blockno → contents`) and set `valid`. -/
def bread (disk : Nat → Nat → Nat) (st : BCache) (dev blockno : Nat) :
    Option (Nat × BCache) :=
  match bget st dev blockno with
  | none => none
  | some (j, st1) =>
    if (bufAt st1 j).valid then some (j, st1)
    else
      let b := bufAt st1 j
      some (j, setBuf st1 j { b with data := disk b.dev b.blockno, valid := true })

/-- `bwrite(b)`: panic unless the caller holds the sleep-lock, else one
synchronous device write (`virtio_disk_rw(b, 1)`), returned as the
`(dev, blockno, payload)` event; the cache state is unchanged. -/
def bwrite (st : BCache) (j : Nat) : Option ((Nat × Nat × Nat) × BCache) :=
  if (bufAt st j).held = false then none
  else some (((bufAt st j).dev, (bufAt st j).blockno, (bufAt st j).data), st)

/-- `brelse(b)`: panic unless the caller holds the sleep-lock; release
it; decrement `refcnt` (a `uint` decrement); if the count reached zero,
unlink the buffer and reinsert it at the head of the bucket
`b->blockno % NBUCKETS`. -/
def brelse (st : BCache) (j : Nat) : Option BCache :=
  if (bufAt st j).held = false then none
  else
    let st1 := setBuf st j { bufAt st j with held := false }
    let b := bufAt st1 j
    let bucketno := b.blockno % NBUCKETS
    let r := (b.refcnt + (U32 - 1)) % U32
    let st2 := setBuf st1 j { b with refcnt := r }
    if r = 0 then
      let bks1 := st2.buckets.map (fun l => l.erase j)
      some { st2 with buckets := bks1.set bucketno (j :: bks1.getD bucketno []) }
    else some st2

/-- `bpin(b)`: increment `refcnt` under the home bucket lock; no
sleep-lock requirement. -/
def bpin (st : BCache) (j : Nat) : BCache :=
  let b := bufAt st j
  setBuf st j { b with refcnt := (b.refcnt + 1) % U32 }

/-- `bunpin(b)`: decrement `refcnt` under the home bucket lock; no
sleep-lock requirement. -/
def bunpin (st : BCache) (j : Nat) : BCache :=
  let b := bufAt st j
  setBuf st j { b with refcnt := (b.refcnt + (U32 - 1)) % U32 }

/-! ## Operation language and reachable states

The cache's clients are the filesystem (`bread … brelse`) and the log
(`bpin`/`bunpin` on buffers they hold).  Matched usage is modelled by
the precondition `wfOp`: a release or an un/pin only happens on a
buffer with an outstanding reference (`brelse` additionally requires
the sleep-lock inside its own code, as the C does). -/

inductive BOp where
  | get (dev blockno : Nat)
  | read (dev blockno : Nat)
  | rel (j : Nat)
  | pin (j : Nat)
  | unpin (j : Nat)

/-- One sequential step of the cache; `none` is a panic. -/
def execOp (disk : Nat → Nat → Nat) : BOp → BCache → Option BCache
  | .get d bn, st => (bget st d bn).map (fun p => p.2)
  | .read d bn, st => (bread disk st d bn).map (fun p => p.2)
  | .rel j, st => brelse st j
  | .pin j, st => some (bpin st j)
  | .unpin j, st => some (bunpin st j)

/-- Well-formed (matched) usage: decrements and pins only target a
buffer some caller still holds a reference to. -/
def wfOp : BOp → BCache → Prop
  | .get _ _, _ => True
  | .read _ _, _ => True
  | .rel j, st => 1 ≤ (bufAt st j).refcnt
  | .pin j, st => 1 ≤ (bufAt st j).refcnt
  | .unpin j, st => 1 ≤ (bufAt st j).refcnt

/-- States reachable from `binit NBUF` by well-formed operations. -/
inductive Reach (disk : Nat → Nat → Nat) (NBUF : Nat) : BCache → Prop
  | init : Reach disk NBUF (binit NBUF)
  | step {st st' : BCache} {op : BOp} :
      Reach disk NBUF st → wfOp op st → execOp disk op st = some st' →
      Reach disk NBUF st'

/-! ## The cache invariant

`BcacheInv NBUF st` packages:
* pool and bucket array sizes;
* every index on a bucket's list is a pool index whose current
  `blockno` hashes to that bucket (home-bucket placement, claim C10);
* every pool index appears exactly once on its home bucket's list;
* `refcnt` is a `uint` value;
* `liveFirst`: a buffer holding an outstanding reference is what the
  tag scan of its home bucket finds for its own tag — this is the
  inductive strengthening of identity uniqueness (claim C3). -/

def liveFirst (NBUF : Nat) (st : BCache) : Prop :=
  ∀ j, j < NBUF → 1 ≤ (bufAt st j).refcnt →
    (bucketAt st ((bufAt st j).blockno % NBUCKETS)).find?
      (isTag st (bufAt st j).dev (bufAt st j).blockno) = some j

def BcacheInv (NBUF : Nat) (st : BCache) : Prop :=
  st.bufs.length = NBUF ∧
  st.buckets.length = NBUCKETS ∧
  (∀ i, i < NBUCKETS → ∀ j ∈ bucketAt st i, j < NBUF ∧ (bufAt st j).blockno % NBUCKETS = i) ∧
  (∀ j, j < NBUF → (bucketAt st ((bufAt st j).blockno % NBUCKETS)).count j = 1) ∧
  (∀ j, j < NBUF → (bufAt st j).refcnt < U32) ∧
  liveFirst NBUF st

instance (NBUF : Nat) (st : BCache) : Decidable (liveFirst NBUF st) := by
  unfold liveFirst; infer_instance

instance (NBUF : Nat) (st : BCache) : Decidable (BcacheInv NBUF st) := by
  unfold BcacheInv; infer_instance

/-! ## Helper lemmas about `List.find?` -/

theorem find?_congr {l : List Nat} {p q : Nat → Bool}
    (h : ∀ x ∈ l, p x = q x) : l.find? p = l.find? q := by
  induction l with
  | nil => rfl
  | cons a l ih =>
    have ha := h a (List.mem_cons_self a l)
    by_cases hp : p a = true
    · rw [List.find?_cons_of_pos _ hp, List.find?_cons_of_pos _ (ha ▸ hp)]
    · rw [List.find?_cons_of_neg _ (by simpa using hp),
        List.find?_cons_of_neg _ (by simp [← ha]; simpa using hp)]
      exact ih (fun x hx => h x (List.mem_cons_of_mem a hx))

theorem find?_mono {l : List Nat} {p q : Nat → Bool} {a : Nat}
    (hfind : l.find? p = some a) (hqa : q a = true)
    (himp : ∀ x ∈ l, q x = true → p x = true) : l.find? q = some a := by
  induction l with
  | nil => simp at hfind
  | cons b l ih =>
    by_cases hpb : p b = true
    · rw [List.find?_cons_of_pos _ hpb] at hfind
      obtain rfl : b = a := by injection hfind
      rw [List.find?_cons_of_pos _ hqa]
    · rw [List.find?_cons_of_neg _ (by simpa using hpb)] at hfind
      have hqb : ¬ q b = true := fun hq => hpb (himp b (List.mem_cons_self b l) hq)
      rw [List.find?_cons_of_neg _ (by simpa using hqb)]
      exact ih hfind (fun x hx => himp x (List.mem_cons_of_mem b hx))

theorem find?_erase {l : List Nat} {p : Nat → Bool} {b : Nat}
    (hb : p b = false) : (l.erase b).find? p = l.find? p := by
  induction l with
  | nil => rfl
  | cons x l ih =>
    by_cases hxb : x = b
    · subst hxb
      rw [List.erase_cons_head, List.find?_cons_of_neg _ (by simp [hb])]
    · rw [List.erase_cons_tail (by simpa using hxb)]
      by_cases hpx : p x = true
      · rw [List.find?_cons_of_pos _ hpx, List.find?_cons_of_pos _ hpx]
      · rw [List.find?_cons_of_neg _ (by simpa using hpx),
          List.find?_cons_of_neg _ (by simpa using hpx)]
        exact ih

theorem find?_unique {l : List Nat} {p : Nat → Bool} {a : Nat}
    (hmem : a ∈ l) (hpa : p a = true)
    (hothers : ∀ x ∈ l, x ≠ a → p x = false) : l.find? p = some a := by
  induction l with
  | nil => simp at hmem
  | cons x l ih =>
    by_cases hxa : x = a
    · subst hxa
      rw [List.find?_cons_of_pos _ hpa]
    · have hpx : p x = false := hothers x (List.mem_cons_self x l) hxa
      rw [List.find?_cons_of_neg _ (by simp [hpx])]
      have hmem' : a ∈ l := by
        rcases List.mem_cons.1 hmem with h | h
        · exact absurd h.symm hxa
        · exact h
      exact ih hmem' (fun x hx hne => hothers x (List.mem_cons_of_mem _ hx) hne)

theorem find?_cons_false {l : List Nat} {p : Nat → Bool} {b : Nat}
    (hb : p b = false) : (b :: l).find? p = l.find? p := by
  rw [List.find?_cons_of_neg _ (by simp [hb])]

/-! ## State accessor lemmas -/

theorem bufAt_setBuf_self (st : BCache) (j : Nat) (b : Buf) (h : j < st.bufs.length) :
    bufAt (setBuf st j b) j = b :=
  getD_set_self _ _ _ _ h

theorem bufAt_setBuf_ne (st : BCache) (j j' : Nat) (b : Buf) (h : j ≠ j') :
    bufAt (setBuf st j b) j' = bufAt st j' :=
  getD_set_ne _ _ _ _ _ h

theorem buckets_setBuf (st : BCache) (j : Nat) (b : Buf) :
    (setBuf st j b).buckets = st.buckets := rfl

theorem bucketAt_setBuf (st : BCache) (j : Nat) (b : Buf) (i : Nat) :
    bucketAt (setBuf st j b) i = bucketAt st i := rfl

theorem bufsLen_setBuf (st : BCache) (j : Nat) (b : Buf) :
    (setBuf st j b).bufs.length = st.bufs.length := by
  simp [setBuf]

/-- A buffer with an outstanding reference is a real pool index (an
out-of-range read yields the zeroed buffer, whose `refcnt` is 0). -/
theorem lt_of_refcnt_pos (st : BCache) (j : Nat) (h : 1 ≤ (bufAt st j).refcnt) :
    j < st.bufs.length := by
  by_contra hj
  have : bufAt st j = buf0 := by
    simp [bufAt, List.getD, List.getElem?_eq_none (by omega : st.bufs.length ≤ j)]
  rw [this] at h
  simp [buf0] at h

theorem bufAt_setBuf_out (st : BCache) (j : Nat) (b : Buf) (h : st.bufs.length ≤ j) :
    bufAt (setBuf st j b) j = bufAt st j := by
  simp [bufAt, setBuf, List.getD,
    List.getElem?_eq_none (l := st.bufs.set j b) (by simpa using h),
    List.getElem?_eq_none (l := st.bufs) h]

/-- The `uint` decrement `r - 1` computed as `(r + (2^32 - 1)) % 2^32`
is an exact decrement on genuine, positive `uint` values. -/
theorem udecr_eq (r : Nat) (h1 : 1 ≤ r) (h2 : r < U32) :
    (r + (U32 - 1)) % U32 = r - 1 := by
  have hU : (0:Nat) < U32 := by norm_num [U32]
  have h3 : r + (U32 - 1) = (r - 1) + U32 := by omega
  rw [h3, Nat.add_mod_right, Nat.mod_eq_of_lt (by omega)]

theorem umod_lt (r : Nat) : r % U32 < U32 :=
  Nat.mod_lt _ (by norm_num [U32])

theorem getD_map_erase (bks : List (List Nat)) (i j : Nat) :
    (bks.map (fun l => l.erase j)).getD i [] = (bks.getD i []).erase j := by
  rcases Nat.lt_or_ge i bks.length with h | h
  · simp [List.getD, List.getElem?_map, List.getElem?_eq_getElem h]
  · simp [List.getD, List.getElem?_eq_none (l := bks) h,
      List.getElem?_eq_none (l := bks.map (fun l => l.erase j)) (by simpa using h)]

/-- Tag predicates are insensitive to a buffer update that keeps the
buffer's `dev` and `blockno`. -/
theorem isTag_setBuf (st : BCache) (j : Nat) (b' : Buf) (d bn x : Nat)
    (hdev : b'.dev = (bufAt st j).dev) (hblk : b'.blockno = (bufAt st j).blockno) :
    isTag (setBuf st j b') d bn x = isTag st d bn x := by
  by_cases hx : j = x
  · subst hx
    rcases Nat.lt_or_ge j st.bufs.length with h | h
    · rw [isTag, isTag, bufAt_setBuf_self st j b' h, hdev, hblk]
    · rw [isTag, isTag, bufAt_setBuf_out st j b' h]
  · rw [isTag, isTag, bufAt_setBuf_ne st j x b' hx]

theorem bufAt_dev_setBuf (st : BCache) (j x : Nat) (b' : Buf)
    (hdev : b'.dev = (bufAt st j).dev) : (bufAt (setBuf st j b') x).dev = (bufAt st x).dev := by
  by_cases hx : j = x
  · subst hx
    rcases Nat.lt_or_ge j st.bufs.length with h | h
    · rw [bufAt_setBuf_self st j b' h, hdev]
    · rw [bufAt_setBuf_out st j b' h]
  · rw [bufAt_setBuf_ne st j x b' hx]

theorem bufAt_blockno_setBuf (st : BCache) (j x : Nat) (b' : Buf)
    (hblk : b'.blockno = (bufAt st j).blockno) :
    (bufAt (setBuf st j b') x).blockno = (bufAt st x).blockno := by
  by_cases hx : j = x
  · subst hx
    rcases Nat.lt_or_ge j st.bufs.length with h | h
    · rw [bufAt_setBuf_self st j b' h, hblk]
    · rw [bufAt_setBuf_out st j b' h]
  · rw [bufAt_setBuf_ne st j x b' hx]

/-! ## Invariant preservation -/

/-- A buffer update that keeps the buffer's tag (`dev`, `blockno`),
keeps `refcnt` a `uint`, and does not resurrect a dead buffer (if the
new count is positive the old one was), preserves the invariant.  This
covers `bpin`, `bunpin`, the non-final `brelse` decrement, and the
`valid`/`data` update of `bread`. -/
theorem BcacheInv_setBuf_meta (NBUF : Nat) (st : BCache) (j : Nat) (b' : Buf)
    (hInv : BcacheInv NBUF st)
    (hdev : b'.dev = (bufAt st j).dev) (hblk : b'.blockno = (bufAt st j).blockno)
    (hrc : b'.refcnt < U32)
    (hlive : 1 ≤ b'.refcnt → 1 ≤ (bufAt st j).refcnt) :
    BcacheInv NBUF (setBuf st j b') := by
  obtain ⟨hA, hA2, hB, hC, hD, hE⟩ := hInv
  refine ⟨by rw [bufsLen_setBuf]; exact hA, hA2, ?_, ?_, ?_, ?_⟩
  · intro i hi x hx
    rw [bucketAt_setBuf] at hx
    obtain ⟨h1, h2⟩ := hB i hi x hx
    exact ⟨h1, by rw [bufAt_blockno_setBuf st j x b' hblk]; exact h2⟩
  · intro x hx
    rw [bufAt_blockno_setBuf st j x b' hblk, bucketAt_setBuf]
    exact hC x hx
  · intro x hx
    by_cases hjx : j = x
    · subst hjx
      rcases Nat.lt_or_ge j st.bufs.length with h | h
      · rw [bufAt_setBuf_self st j b' h]; exact hrc
      · rw [bufAt_setBuf_out st j b' h]; exact hD j hx
    · rw [bufAt_setBuf_ne st j x b' hjx]; exact hD x hx
  · intro x hx hrcx
    have hrcx' : 1 ≤ (bufAt st x).refcnt := by
      by_cases hjx : j = x
      · subst hjx
        rcases Nat.lt_or_ge j st.bufs.length with h | h
        · rw [bufAt_setBuf_self st j b' h] at hrcx; exact hlive hrcx
        · rwa [bufAt_setBuf_out st j b' h] at hrcx
      · rwa [bufAt_setBuf_ne st j x b' hjx] at hrcx
    have hfind := hE x hx hrcx'
    rw [bufAt_dev_setBuf st j x b' hdev, bufAt_blockno_setBuf st j x b' hblk, bucketAt_setBuf,
      find?_congr (fun y _ => isTag_setBuf st j b' (bufAt st x).dev (bufAt st x).blockno y hdev hblk)]
    exact hfind

theorem BcacheInv_bpin (NBUF : Nat) (st : BCache) (j : Nat)
    (hInv : BcacheInv NBUF st) (hwf : 1 ≤ (bufAt st j).refcnt) :
    BcacheInv NBUF (bpin st j) :=
  BcacheInv_setBuf_meta NBUF st j _ hInv rfl rfl (umod_lt _) (fun _ => hwf)

theorem BcacheInv_bunpin (NBUF : Nat) (st : BCache) (j : Nat)
    (hInv : BcacheInv NBUF st) (hwf : 1 ≤ (bufAt st j).refcnt) :
    BcacheInv NBUF (bunpin st j) :=
  BcacheInv_setBuf_meta NBUF st j _ hInv rfl rfl (umod_lt _) (fun _ => hwf)

/-! ## Unfolding lemmas for brelse -/

theorem lt_of_held (st : BCache) (j : Nat) (h : (bufAt st j).held = true) :
    j < st.bufs.length := by
  by_contra hj
  have : bufAt st j = buf0 := by
    simp [bufAt, List.getD, List.getElem?_eq_none (by omega : st.bufs.length ≤ j)]
  rw [this] at h
  simp [buf0] at h

theorem setBuf_setBuf (st : BCache) (j : Nat) (b1 b2 : Buf) :
    setBuf (setBuf st j b1) j b2 = setBuf st j b2 := by
  simp [setBuf]

theorem brelse_pos (st : BCache) (j : Nat) (hheld : (bufAt st j).held = true)
    (hr : ((bufAt st j).refcnt + (U32 - 1)) % U32 ≠ 0) :
    brelse st j = some (setBuf st j
      { bufAt st j with
          held := false
          refcnt := ((bufAt st j).refcnt + (U32 - 1)) % U32 }) := by
  have hj := lt_of_held st j hheld
  unfold brelse
  rw [if_neg (by simp [hheld])]
  simp only [bufAt_setBuf_self st j _ hj, setBuf_setBuf]
  rw [if_neg hr]

/-- The state produced by the refcnt-reaches-zero branch of `brelse`:
the buffer, sleep-lock released and count zero, is unlinked and
reinserted at the head of bucket `blockno % NBUCKETS`. -/
def brelseMove (st : BCache) (j : Nat) : BCache :=
  let b := bufAt st j
  let st2 := setBuf st j { b with held := false, refcnt := 0 }
  let bks1 := st2.buckets.map (fun l => l.erase j)
  { st2 with buckets := bks1.set (b.blockno % NBUCKETS) (j :: bks1.getD (b.blockno % NBUCKETS) []) }

theorem brelse_zero (st : BCache) (j : Nat) (hheld : (bufAt st j).held = true)
    (hr : ((bufAt st j).refcnt + (U32 - 1)) % U32 = 0) :
    brelse st j = some (brelseMove st j) := by
  have hj := lt_of_held st j hheld
  unfold brelse brelseMove
  rw [if_neg (by simp [hheld])]
  simp only [bufAt_setBuf_self st j _ hj, setBuf_setBuf]
  rw [if_pos hr, hr]

theorem brelse_none_iff (st : BCache) (j : Nat) :
    brelse st j = none ↔ (bufAt st j).held = false := by
  constructor
  · intro h
    by_contra hheld
    have hheld' : (bufAt st j).held = true := by
      cases hh : (bufAt st j).held
      · exact absurd hh hheld
      · rfl
    by_cases h0 : ((bufAt st j).refcnt + (U32 - 1)) % U32 = 0
    · rw [brelse_zero st j hheld' h0] at h
      exact Option.noConfusion h
    · rw [brelse_pos st j hheld' h0] at h
      exact Option.noConfusion h
  · intro h
    unfold brelse
    rw [if_pos h]

theorem bucketAt_out (st : BCache) (i : Nat) (h : st.buckets.length ≤ i) :
    bucketAt st i = [] := by
  simp [bucketAt, List.getD, List.getElem?_eq_none h]

theorem isTag_true_iff (st : BCache) (d bn x : Nat) :
    isTag st d bn x = true ↔ ((bufAt st x).dev = d ∧ (bufAt st x).blockno = bn) := by
  simp [isTag]

/-- Two distinct live buffers never share a tag (consequence of
`liveFirst`). -/
theorem liveFirst_unique (NBUF : Nat) (st : BCache) (hE : liveFirst NBUF st)
    (x y : Nat) (hx : x < NBUF) (hy : y < NBUF)
    (hrx : 1 ≤ (bufAt st x).refcnt) (hry : 1 ≤ (bufAt st y).refcnt)
    (hdev : (bufAt st x).dev = (bufAt st y).dev)
    (hblk : (bufAt st x).blockno = (bufAt st y).blockno) : x = y := by
  have h1 := hE x hx hrx
  have h2 := hE y hy hry
  rw [hdev, hblk] at h1
  rw [h1] at h2
  injection h2

/-- Invariant preservation for the refcnt-reaches-zero branch of
`brelse`. -/
theorem BcacheInv_brelseMove (NBUF : Nat) (st : BCache) (j : Nat)
    (hInv : BcacheInv NBUF st) (hwf : 1 ≤ (bufAt st j).refcnt) :
    BcacheInv NBUF (brelseMove st j) := by
  obtain ⟨hA, hA2, hB, hC, hD, hE⟩ := hInv
  have hj' : j < st.bufs.length := lt_of_refcnt_pos st j hwf
  have hj : j < NBUF := hA ▸ hj'
  set b := bufAt st j with hb
  set bn := b.blockno % NBUCKETS with hbn
  have hbnlt : bn < NBUCKETS := Nat.mod_lt _ (by norm_num [NBUCKETS])
  set b2 : Buf := { b with held := false, refcnt := 0 } with hb2
  set st2 := setBuf st j b2 with hst2
  have hdev2 : b2.dev = (bufAt st j).dev := rfl
  have hblk2 : b2.blockno = (bufAt st j).blockno := rfl
  have hmemj : j ∈ bucketAt st bn := by
    have hcnt := hC j hj
    rw [← hb, ← hbn] at hcnt
    exact List.count_pos_iff.1 (by omega)
  have hnotmem : ∀ i, i ≠ bn → j ∉ bucketAt st i := by
    intro i hi hmem
    rcases Nat.lt_or_ge i st.buckets.length with h | h
    · exact hi ((hB i (hA2 ▸ h) j hmem).2.symm ▸ rfl)
    · rw [bucketAt_out st i h] at hmem
      exact List.not_mem_nil j hmem
  -- shape of the new state
  have hbufs : (brelseMove st j).bufs = st2.bufs := rfl
  have hbufAt : ∀ x, bufAt (brelseMove st j) x = bufAt st2 x := fun _ => rfl
  have hbklen : (brelseMove st j).buckets.length = NBUCKETS := by
    simp [brelseMove, hst2, setBuf, hA2]
  have hba_bn : bucketAt (brelseMove st j) bn = j :: (bucketAt st bn).erase j := by
    show ((st2.buckets.map (fun l => l.erase j)).set bn
        (j :: (st2.buckets.map (fun l => l.erase j)).getD bn [])).getD bn [] = _
    rw [getD_set_self _ _ _ _ (by simp [hst2, setBuf, hA2]; omega),
      getD_map_erase]
    rfl
  have hba_ne : ∀ i, i ≠ bn → bucketAt (brelseMove st j) i = (bucketAt st i).erase j := by
    intro i hi
    show ((st2.buckets.map (fun l => l.erase j)).set bn
        (j :: (st2.buckets.map (fun l => l.erase j)).getD bn [])).getD i [] = _
    rw [getD_set_ne _ _ _ _ _ (fun h => hi h.symm), getD_map_erase]
    rfl
  have hba_ne' : ∀ i, i ≠ bn → bucketAt (brelseMove st j) i = bucketAt st i := by
    intro i hi
    rw [hba_ne i hi, List.erase_of_not_mem (hnotmem i hi)]
  have hjnotin : j ∉ (bucketAt st bn).erase j := by
    have hcnt := hC j hj
    rw [← hb, ← hbn] at hcnt
    have : ((bucketAt st bn).erase j).count j = 0 := by
      rw [List.count_erase_self, hcnt]
    exact List.count_eq_zero.1 this
  -- tag values are unchanged
  have htag : ∀ d bn' y, isTag (brelseMove st j) d bn' y = isTag st d bn' y := by
    intro d bn' y
    have : isTag (brelseMove st j) d bn' y = isTag st2 d bn' y := by
      unfold isTag
      rw [hbufAt]
    rw [this]
    exact isTag_setBuf st j b2 d bn' y hdev2 hblk2
  have hdev' : ∀ x, (bufAt (brelseMove st j) x).dev = (bufAt st x).dev := by
    intro x
    rw [hbufAt]
    exact bufAt_dev_setBuf st j x b2 hdev2
  have hblk' : ∀ x, (bufAt (brelseMove st j) x).blockno = (bufAt st x).blockno := by
    intro x
    rw [hbufAt]
    exact bufAt_blockno_setBuf st j x b2 hblk2
  have hrc' : ∀ x, x ≠ j → (bufAt (brelseMove st j) x).refcnt = (bufAt st x).refcnt := by
    intro x hx
    rw [hbufAt, hst2, bufAt_setBuf_ne st j x b2 (fun h => hx h.symm)]
  have hrcj : (bufAt (brelseMove st j) j).refcnt = 0 := by
    rw [hbufAt, hst2, bufAt_setBuf_self st j b2 hj']
  refine ⟨by simpa [brelseMove, hst2, setBuf] using hA, hbklen, ?_, ?_, ?_, ?_⟩
  · -- home-bucket placement
    intro i hi x hx
    by_cases hibn : i = bn
    · subst hibn
      rw [hba_bn] at hx
      rcases List.mem_cons.1 hx with hxx | hx'
      · refine ⟨by rw [hxx]; exact hj, ?_⟩
        rw [hxx, hblk' j, ← hb]
      · have hx'' := List.mem_of_mem_erase hx'
        obtain ⟨h1, h2⟩ := hB bn hi x hx''
        exact ⟨h1, by rw [hblk' x]; exact h2⟩
    · rw [hba_ne' i hibn] at hx
      obtain ⟨h1, h2⟩ := hB i hi x hx
      exact ⟨h1, by rw [hblk' x]; exact h2⟩
  · -- exactly-once placement
    intro x hx
    by_cases hxj : x = j
    · rw [hxj, hblk' j, ← hb, ← hbn, hba_bn, List.count_cons_self]
      have : ((bucketAt st bn).erase j).count j = 0 := by
        rw [List.count_erase_self]
        have hcnt := hC j hj
        rw [← hb, ← hbn] at hcnt
        omega
      omega
    · rw [hblk' x]
      by_cases hibn : (bufAt st x).blockno % NBUCKETS = bn
      · rw [hibn, hba_bn, List.count_cons_of_ne hxj,
          List.count_erase_of_ne hxj]
        have := hC x hx
        rw [hibn] at this
        exact this
      · rw [hba_ne' _ hibn]
        exact hC x hx
  · -- refcnt is a uint
    intro x hx
    by_cases hxj : x = j
    · subst hxj
      rw [hrcj]
      norm_num [U32]
    · rw [hrc' x hxj]
      exact hD x hx
  · -- liveFirst
    intro x hx hrcx
    have hxj : x ≠ j := by
      intro h
      rw [h, hrcj] at hrcx
      omega
    rw [hrc' x hxj] at hrcx
    have hfind := hE x hx hrcx
    have hpj : isTag st (bufAt st x).dev (bufAt st x).blockno j = false := by
      by_contra hp
      have hp' : isTag st (bufAt st x).dev (bufAt st x).blockno j = true := by
        cases hq : isTag st (bufAt st x).dev (bufAt st x).blockno j
        · exact absurd hq hp
        · rfl
      obtain ⟨hd, hbk⟩ := (isTag_true_iff st _ _ j).1 hp'
      exact hxj.symm (liveFirst_unique NBUF st hE j x hj hx hwf hrcx hd hbk)
    rw [hdev' x, hblk' x,
      find?_congr (fun y _ => htag (bufAt st x).dev (bufAt st x).blockno y)]
    by_cases hibn : (bufAt st x).blockno % NBUCKETS = bn
    · rw [hibn, hba_bn, find?_cons_false hpj, find?_erase hpj]
      rw [hibn] at hfind
      exact hfind
    · rw [hba_ne' _ hibn]
      exact hfind

theorem BcacheInv_brelse (NBUF : Nat) (st st' : BCache) (j : Nat)
    (hInv : BcacheInv NBUF st) (hwf : 1 ≤ (bufAt st j).refcnt)
    (hsome : brelse st j = some st') : BcacheInv NBUF st' := by
  have hheld : (bufAt st j).held = true := by
    cases hh : (bufAt st j).held
    · rw [(brelse_none_iff st j).2 hh] at hsome
      exact Option.noConfusion hsome
    · rfl
  by_cases h0 : ((bufAt st j).refcnt + (U32 - 1)) % U32 = 0
  · rw [brelse_zero st j hheld h0] at hsome
    injection hsome with h
    rw [← h]
    exact BcacheInv_brelseMove NBUF st j hInv hwf
  · rw [brelse_pos st j hheld h0] at hsome
    injection hsome with h
    rw [← h]
    exact BcacheInv_setBuf_meta NBUF st j _ hInv rfl rfl (umod_lt _) (fun _ => hwf)

/-! ## Unfolding lemmas for bget and its eviction scan -/

theorem bget_hit (st : BCache) (dev blockno j : Nat)
    (hfind : (bucketAt st (blockno % NBUCKETS)).find? (isTag st dev blockno) = some j) :
    bget st dev blockno = some (j, refHit st j) := by
  unfold bget
  simp only [hfind]

theorem bget_local (st : BCache) (dev blockno j : Nat)
    (hnone : (bucketAt st (blockno % NBUCKETS)).find? (isTag st dev blockno) = none)
    (hfree : (bucketAt st (blockno % NBUCKETS)).find? (isFree st) = some j) :
    bget st dev blockno = some (j, retagLocal st dev blockno j) := by
  unfold bget
  simp only [hnone, hfree]

theorem bget_steal (st : BCache) (dev blockno : Nat)
    (hnone : (bucketAt st (blockno % NBUCKETS)).find? (isTag st dev blockno) = none)
    (hfreeNone : (bucketAt st (blockno % NBUCKETS)).find? (isFree st) = none) :
    bget st dev blockno = stealBuf st dev blockno (blockno % NBUCKETS) 0 NBUCKETS := by
  unfold bget
  simp only [hnone, hfreeNone]

theorem stealBuf_succ (st : BCache) (dev blockno bucketno i k : Nat) :
    stealBuf st dev blockno bucketno i (k + 1) =
      if i = bucketno then stealBuf st dev blockno bucketno (i + 1) k
      else
        match (bucketAt st i).reverse.find? (isFree st) with
        | some j => some (j, spliceRetag st dev blockno i j)
        | none => stealBuf st dev blockno bucketno (i + 1) k := rfl

theorem stealBuf_succ_skip (st : BCache) (dev blockno bucketno i k : Nat)
    (hic : i = bucketno) :
    stealBuf st dev blockno bucketno i (k + 1) = stealBuf st dev blockno bucketno (i + 1) k := by
  rw [stealBuf_succ, if_pos hic]

theorem stealBuf_succ_none (st : BCache) (dev blockno bucketno i k : Nat)
    (hic : i ≠ bucketno) (hfl : (bucketAt st i).reverse.find? (isFree st) = none) :
    stealBuf st dev blockno bucketno i (k + 1) = stealBuf st dev blockno bucketno (i + 1) k := by
  rw [stealBuf_succ, if_neg hic, hfl]

theorem stealBuf_succ_found (st : BCache) (dev blockno bucketno i k j : Nat)
    (hic : i ≠ bucketno) (hfl : (bucketAt st i).reverse.find? (isFree st) = some j) :
    stealBuf st dev blockno bucketno i (k + 1) = some (j, spliceRetag st dev blockno i j) := by
  rw [stealBuf_succ, if_neg hic, hfl]

/-- The eviction scan either fails, with no reference-count-zero buffer
in any visited foreign bucket, or settles on the tail-most free buffer
of the first (ascending order) foreign bucket that has one. -/
theorem stealBuf_spec (st : BCache) (dev blockno bucketno : Nat) (k i : Nat) :
    (stealBuf st dev blockno bucketno i k = none ∧
      ∀ i', i ≤ i' → i' < i + k → i' ≠ bucketno →
        (bucketAt st i').reverse.find? (isFree st) = none) ∨
    (∃ i₀ j, i ≤ i₀ ∧ i₀ < i + k ∧ i₀ ≠ bucketno ∧
      (bucketAt st i₀).reverse.find? (isFree st) = some j ∧
      (∀ i', i ≤ i' → i' < i₀ → i' ≠ bucketno →
        (bucketAt st i').reverse.find? (isFree st) = none) ∧
      stealBuf st dev blockno bucketno i k = some (j, spliceRetag st dev blockno i₀ j)) := by
  induction k generalizing i with
  | zero => exact Or.inl ⟨rfl, fun i' h1 h2 _ => absurd (Nat.lt_of_le_of_lt h1 h2) (by omega)⟩
  | succ k ih =>
    by_cases hic : i = bucketno
    · rcases ih (i + 1) with ⟨hnone, hall⟩ | ⟨i₀, j, h1, h2, h3, h4, h5, h6⟩
      · refine Or.inl ⟨by rw [stealBuf_succ_skip st dev blockno bucketno i k hic, hnone],
          fun i' hle hlt hne => ?_⟩
        have : i ≠ i' := fun h => hne (h ▸ hic)
        exact hall i' (by omega) (by omega) hne
      · refine Or.inr ⟨i₀, j, by omega, by omega, h3, h4, fun i' hle hlt hne => ?_, ?_⟩
        · have : i ≠ i' := fun h => hne (h ▸ hic)
          exact h5 i' (by omega) hlt hne
        · rw [stealBuf_succ_skip st dev blockno bucketno i k hic, h6]
    · cases hfl : (bucketAt st i).reverse.find? (isFree st) with
      | none =>
        rcases ih (i + 1) with ⟨hnone, hall⟩ | ⟨i₀, j, h1, h2, h3, h4, h5, h6⟩
        · refine Or.inl ⟨by rw [stealBuf_succ_none st dev blockno bucketno i k hic hfl, hnone],
            fun i' hle hlt hne => ?_⟩
          rcases Nat.eq_or_lt_of_le hle with h | h
          · exact h ▸ hfl
          · exact hall i' h (by omega) hne
        · refine Or.inr ⟨i₀, j, by omega, by omega, h3, h4, fun i' hle hlt hne => ?_, ?_⟩
          · rcases Nat.eq_or_lt_of_le hle with h | h
            · exact h ▸ hfl
            · exact h5 i' h hlt hne
          · rw [stealBuf_succ_none st dev blockno bucketno i k hic hfl, h6]
      | some j =>
        exact Or.inr ⟨i, j, Nat.le_refl i, by omega, hic, hfl,
          fun i' hle hlt _ => absurd (Nat.lt_of_le_of_lt hle hlt) (by omega),
          stealBuf_succ_found st dev blockno bucketno i k j hic hfl⟩

/-! ## Invariant preservation for the three bget branches -/

theorem refcnt_lt_U32 (NBUF : Nat) (st : BCache) (hA : st.bufs.length = NBUF)
    (hD : ∀ x, x < NBUF → (bufAt st x).refcnt < U32) (x : Nat) :
    (bufAt st x).refcnt < U32 := by
  rcases Nat.lt_or_ge x NBUF with h | h
  · exact hD x h
  · have : bufAt st x = buf0 := by
      simp [bufAt, List.getD, List.getElem?_eq_none (by omega : st.bufs.length ≤ x)]
    rw [this]
    norm_num [buf0, U32]

theorem BcacheInv_refHit (NBUF : Nat) (st : BCache) (dev blockno j : Nat)
    (hInv : BcacheInv NBUF st)
    (hfind : (bucketAt st (blockno % NBUCKETS)).find? (isTag st dev blockno) = some j) :
    BcacheInv NBUF (refHit st j) := by
  obtain ⟨hA, hA2, hB, hC, hD, hE⟩ := hInv
  have hbnlt : blockno % NBUCKETS < NBUCKETS := Nat.mod_lt _ (by norm_num [NBUCKETS])
  have hmem : j ∈ bucketAt st (blockno % NBUCKETS) := List.mem_of_find?_eq_some hfind
  have hj : j < NBUF := (hB _ hbnlt j hmem).1
  have hj' : j < st.bufs.length := by omega
  obtain ⟨hdevj, hblkj⟩ := (isTag_true_iff st dev blockno j).1 (List.find?_some hfind)
  set b' : Buf := { bufAt st j with refcnt := ((bufAt st j).refcnt + 1) % U32, held := true } with hb'
  have hre : refHit st j = setBuf st j b' := rfl
  have hdev2 : b'.dev = (bufAt st j).dev := rfl
  have hblk2 : b'.blockno = (bufAt st j).blockno := rfl
  rw [hre]
  refine ⟨by rw [bufsLen_setBuf]; exact hA, hA2, ?_, ?_, ?_, ?_⟩
  · intro i hi x hx
    rw [bucketAt_setBuf] at hx
    obtain ⟨h1, h2⟩ := hB i hi x hx
    exact ⟨h1, by rw [bufAt_blockno_setBuf st j x b' hblk2]; exact h2⟩
  · intro x hx
    rw [bufAt_blockno_setBuf st j x b' hblk2, bucketAt_setBuf]
    exact hC x hx
  · intro x hx
    by_cases hjx : j = x
    · subst hjx
      rw [bufAt_setBuf_self st j b' hj']
      exact umod_lt _
    · rw [bufAt_setBuf_ne st j x b' hjx]
      exact hD x hx
  · intro x hx hrcx
    rw [bufAt_dev_setBuf st j x b' hdev2, bufAt_blockno_setBuf st j x b' hblk2, bucketAt_setBuf,
      find?_congr (fun y _ => isTag_setBuf st j b' (bufAt st x).dev (bufAt st x).blockno y hdev2 hblk2)]
    by_cases hjx : x = j
    · rw [hjx, hdevj, hblkj]
      exact hfind
    · have hrcx' : 1 ≤ (bufAt st x).refcnt := by
        rwa [bufAt_setBuf_ne st j x b' (fun h => hjx h.symm)] at hrcx
      exact hE x hx hrcx'

theorem BcacheInv_retagLocal (NBUF : Nat) (st : BCache) (dev blockno j : Nat)
    (hInv : BcacheInv NBUF st)
    (hnone : (bucketAt st (blockno % NBUCKETS)).find? (isTag st dev blockno) = none)
    (hfree : (bucketAt st (blockno % NBUCKETS)).find? (isFree st) = some j) :
    BcacheInv NBUF (retagLocal st dev blockno j) := by
  obtain ⟨hA, hA2, hB, hC, hD, hE⟩ := hInv
  have hbnlt : blockno % NBUCKETS < NBUCKETS := Nat.mod_lt _ (by norm_num [NBUCKETS])
  have hmem : j ∈ bucketAt st (blockno % NBUCKETS) := List.mem_of_find?_eq_some hfree
  have hj : j < NBUF := (hB _ hbnlt j hmem).1
  have hj' : j < st.bufs.length := by omega
  have hhomej : (bufAt st j).blockno % NBUCKETS = blockno % NBUCKETS := (hB _ hbnlt j hmem).2
  have hnotag : ∀ y ∈ bucketAt st (blockno % NBUCKETS), isTag st dev blockno y = false := by
    intro y hy
    have := List.find?_eq_none.1 hnone y hy
    cases hq : isTag st dev blockno y
    · rfl
    · exact absurd hq this
  set b' : Buf := { bufAt st j with dev := dev, blockno := blockno, valid := false, refcnt := 1, held := true } with hb'
  have hre : retagLocal st dev blockno j = setBuf st j b' := rfl
  have hdev2 : b'.dev = dev := rfl
  have hblk2 : b'.blockno = blockno := rfl
  rw [hre]
  have hbufAt_ne : ∀ x, x ≠ j → bufAt (setBuf st j b') x = bufAt st x :=
    fun x hx => bufAt_setBuf_ne st j x b' (fun h => hx h.symm)
  have hbufAt_j : bufAt (setBuf st j b') j = b' := bufAt_setBuf_self st j b' hj'
  have htagne : ∀ d bn y, y ≠ j → isTag (setBuf st j b') d bn y = isTag st d bn y := by
    intro d bn y hy
    unfold isTag
    rw [hbufAt_ne y hy]
  refine ⟨by rw [bufsLen_setBuf]; exact hA, hA2, ?_, ?_, ?_, ?_⟩
  · intro i hi x hx
    rw [bucketAt_setBuf] at hx
    obtain ⟨h1, h2⟩ := hB i hi x hx
    refine ⟨h1, ?_⟩
    by_cases hxj : x = j
    · subst hxj
      rw [hbufAt_j, hblk2, ← hhomej]
      exact h2
    · rw [hbufAt_ne x hxj]
      exact h2
  · intro x hx
    rw [bucketAt_setBuf]
    by_cases hxj : x = j
    · subst hxj
      rw [hbufAt_j, hblk2, ← hhomej]
      exact hC x hx
    · rw [hbufAt_ne x hxj]
      exact hC x hx
  · intro x hx
    by_cases hxj : x = j
    · subst hxj
      rw [hbufAt_j]
      norm_num [hb', U32]
    · rw [hbufAt_ne x hxj]
      exact hD x hx
  · intro x hx hrcx
    rw [bucketAt_setBuf]
    by_cases hxj : x = j
    · subst hxj
      rw [hbufAt_j, hdev2, hblk2]
      refine find?_unique hmem ?_ ?_
      · rw [isTag_true_iff, hbufAt_j]
        exact ⟨rfl, rfl⟩
      · intro y hy hyj
        rw [htagne dev blockno y hyj]
        exact hnotag y hy
    · rw [hbufAt_ne x hxj] at hrcx ⊢
      have hfindx := hE x hx hrcx
      have hpair : ¬((bufAt st x).dev = dev ∧ (bufAt st x).blockno = blockno) := by
        rintro ⟨hd, hbk⟩
        have hxmem : x ∈ bucketAt st ((bufAt st x).blockno % NBUCKETS) := by
          have := hC x hx
          exact List.count_pos_iff.1 (by omega)
        rw [hbk] at hxmem
        have htrue : isTag st dev blockno x = true := (isTag_true_iff st dev blockno x).2 ⟨hd, hbk⟩
        rw [hnotag x hxmem] at htrue
        exact Bool.noConfusion htrue
      refine find?_mono hfindx ?_ ?_
      · rw [isTag_true_iff, hbufAt_ne x hxj]
        exact ⟨rfl, rfl⟩
      · intro y hy hq
        by_cases hyj : y = j
        · subst hyj
          rw [isTag_true_iff, hbufAt_j, hdev2, hblk2] at hq
          exact absurd ⟨hq.1.symm, hq.2.symm⟩ hpair
        · rwa [htagne _ _ y hyj] at hq

theorem BcacheInv_spliceRetag (NBUF : Nat) (st : BCache) (dev blockno i₀ j : Nat)
    (hInv : BcacheInv NBUF st)
    (hnone : (bucketAt st (blockno % NBUCKETS)).find? (isTag st dev blockno) = none)
    (hi₀ : i₀ < NBUCKETS) (hi₀bn : i₀ ≠ blockno % NBUCKETS)
    (hfind : (bucketAt st i₀).reverse.find? (isFree st) = some j) :
    BcacheInv NBUF (spliceRetag st dev blockno i₀ j) := by
  obtain ⟨hA, hA2, hB, hC, hD, hE⟩ := hInv
  have hbnlt : blockno % NBUCKETS < NBUCKETS := Nat.mod_lt _ (by norm_num [NBUCKETS])
  have hmem : j ∈ bucketAt st i₀ :=
    List.mem_reverse.1 (List.mem_of_find?_eq_some hfind)
  have hj : j < NBUF := (hB _ hi₀ j hmem).1
  have hj' : j < st.bufs.length := by omega
  have hhomej : (bufAt st j).blockno % NBUCKETS = i₀ := (hB _ hi₀ j hmem).2
  have hnotag : ∀ y ∈ bucketAt st (blockno % NBUCKETS), isTag st dev blockno y = false := by
    intro y hy
    have := List.find?_eq_none.1 hnone y hy
    cases hq : isTag st dev blockno y
    · rfl
    · exact absurd hq this
  have hnotmem : ∀ i, i ≠ i₀ → j ∉ bucketAt st i := by
    intro i hi hmem'
    rcases Nat.lt_or_ge i st.buckets.length with h | h
    · exact hi ((hB i (hA2 ▸ h) j hmem').2.symm ▸ hhomej ▸ rfl)
    · rw [bucketAt_out st i h] at hmem'
      exact List.not_mem_nil j hmem'
  have hcntj : (bucketAt st i₀).count j = 1 := by
    have := hC j hj
    rwa [hhomej] at this
  set b' : Buf := { bufAt st j with dev := dev, blockno := blockno, valid := false, refcnt := 1, held := true } with hb'
  set st1 := setBuf st j b' with hst1
  have hst1buckets : st1.buckets = st.buckets := rfl
  have hbufAt_ne : ∀ x, x ≠ j → bufAt st1 x = bufAt st x :=
    fun x hx => bufAt_setBuf_ne st j x b' (fun h => hx h.symm)
  have hbufAt_j : bufAt st1 j = b' := bufAt_setBuf_self st j b' hj'
  -- the new bucket array
  have hsplit : (spliceRetag st dev blockno i₀ j).bufs = st1.bufs := rfl
  have hbuckets : (spliceRetag st dev blockno i₀ j).buckets =
      (st.buckets.set i₀ ((bucketAt st i₀).erase j)).set (blockno % NBUCKETS)
        (j :: bucketAt st (blockno % NBUCKETS)) := by
    show (st.buckets.set i₀ ((st.buckets.getD i₀ []).erase j)).set (blockno % NBUCKETS)
        (j :: (st.buckets.set i₀ ((st.buckets.getD i₀ []).erase j)).getD (blockno % NBUCKETS) []) = _
    rw [getD_set_ne _ _ _ _ _ hi₀bn]
    rfl
  have hbklen : (spliceRetag st dev blockno i₀ j).buckets.length = NBUCKETS := by
    rw [hbuckets]
    simp [hA2]
  have hba_bn : bucketAt (spliceRetag st dev blockno i₀ j) (blockno % NBUCKETS) =
      j :: bucketAt st (blockno % NBUCKETS) := by
    unfold bucketAt
    rw [hbuckets]
    exact getD_set_self _ _ _ _ (by simp [hA2]; omega)
  have hba_i₀ : bucketAt (spliceRetag st dev blockno i₀ j) i₀ = (bucketAt st i₀).erase j := by
    unfold bucketAt
    rw [hbuckets, getD_set_ne _ _ _ _ _ (fun h => hi₀bn h.symm)]
    exact getD_set_self _ _ _ _ (by omega)
  have hba_other : ∀ i, i ≠ i₀ → i ≠ blockno % NBUCKETS →
      bucketAt (spliceRetag st dev blockno i₀ j) i = bucketAt st i := by
    intro i h1 h2
    unfold bucketAt
    rw [hbuckets, getD_set_ne _ _ _ _ _ (fun h => h2 h.symm),
      getD_set_ne _ _ _ _ _ (fun h => h1 h.symm)]
  have hbufAt' : ∀ x, bufAt (spliceRetag st dev blockno i₀ j) x = bufAt st1 x := fun _ => rfl
  have hjnotin : j ∉ (bucketAt st i₀).erase j := by
    have : ((bucketAt st i₀).erase j).count j = 0 := by
      rw [List.count_erase_self, hcntj]
    exact List.count_eq_zero.1 this
  refine ⟨by rw [hsplit, hst1]; rw [bufsLen_setBuf]; exact hA, hbklen, ?_, ?_, ?_, ?_⟩
  · -- home-bucket placement
    intro i hi x hx
    by_cases hibn : i = blockno % NBUCKETS
    · rw [hibn, hba_bn] at hx
      rcases List.mem_cons.1 hx with hxx | hx'
      · subst hxx
        refine ⟨hj, ?_⟩
        rw [hbufAt', hbufAt_j]
        exact hibn ▸ rfl
      · have hxj : x ≠ j := fun h => hnotmem _ hi₀bn.symm (h ▸ hx')
        obtain ⟨h1, h2⟩ := hB _ hbnlt x hx'
        refine ⟨h1, ?_⟩
        rw [hbufAt', hbufAt_ne x hxj, hibn]
        exact h2
    · by_cases hii₀ : i = i₀
      · rw [hii₀, hba_i₀] at hx
        have hxj : x ≠ j := fun h => hjnotin (h ▸ hx)
        have hx' := List.mem_of_mem_erase hx
        obtain ⟨h1, h2⟩ := hB _ hi₀ x hx'
        refine ⟨h1, ?_⟩
        rw [hbufAt', hbufAt_ne x hxj, hii₀]
        exact h2
      · rw [hba_other i hii₀ hibn] at hx
        have hxj : x ≠ j := fun h => hnotmem i hii₀ (h ▸ hx)
        obtain ⟨h1, h2⟩ := hB i hi x hx
        refine ⟨h1, ?_⟩
        rw [hbufAt', hbufAt_ne x hxj]
        exact h2
  · -- exactly-once placement
    intro x hx
    by_cases hxj : x = j
    · rw [hxj, hbufAt', hbufAt_j]
      show (bucketAt (spliceRetag st dev blockno i₀ j) (blockno % NBUCKETS)).count j = 1
      rw [hba_bn, List.count_cons_self]
      have : (bucketAt st (blockno % NBUCKETS)).count j = 0 :=
        List.count_eq_zero.2 (hnotmem _ hi₀bn.symm)
      omega
    · rw [hbufAt', hbufAt_ne x hxj]
      by_cases hibn : (bufAt st x).blockno % NBUCKETS = blockno % NBUCKETS
      · rw [hibn, hba_bn, List.count_cons_of_ne hxj]
        have := hC x hx
        rw [hibn] at this
        exact this
      · by_cases hii₀ : (bufAt st x).blockno % NBUCKETS = i₀
        · rw [hii₀, hba_i₀, List.count_erase_of_ne hxj]
          have := hC x hx
          rw [hii₀] at this
          exact this
        · rw [hba_other _ hii₀ hibn]
          exact hC x hx
  · -- refcnt is a uint
    intro x hx
    rw [hbufAt']
    by_cases hxj : x = j
    · rw [hxj, hbufAt_j]
      norm_num [hb', U32]
    · rw [hbufAt_ne x hxj]
      exact hD x hx
  · -- liveFirst
    intro x hx hrcx
    rw [hbufAt'] at hrcx ⊢
    by_cases hxj : x = j
    · rw [hxj, hbufAt_j]
      show (bucketAt (spliceRetag st dev blockno i₀ j) (b'.blockno % NBUCKETS)).find?
        (isTag (spliceRetag st dev blockno i₀ j) b'.dev b'.blockno) = some j
      have hb'blk : b'.blockno = blockno := rfl
      have hb'dev : b'.dev = dev := rfl
      rw [hb'blk, hb'dev, hba_bn]
      refine List.find?_cons_of_pos _ ?_
      rw [isTag_true_iff]
      exact ⟨by rw [hbufAt', hbufAt_j], by rw [hbufAt', hbufAt_j]⟩
    · rw [hbufAt_ne x hxj] at hrcx ⊢
      have hfindx := hE x hx hrcx
      have hpair : ¬((bufAt st x).dev = dev ∧ (bufAt st x).blockno = blockno) := by
        rintro ⟨hd, hbk⟩
        have hxmem : x ∈ bucketAt st ((bufAt st x).blockno % NBUCKETS) := by
          have := hC x hx
          exact List.count_pos_iff.1 (by omega)
        rw [hbk] at hxmem
        have htrue : isTag st dev blockno x = true := (isTag_true_iff st dev blockno x).2 ⟨hd, hbk⟩
        rw [hnotag x hxmem] at htrue
        exact Bool.noConfusion htrue
      have htagne : ∀ d bn y, y ≠ j →
          isTag (spliceRetag st dev blockno i₀ j) d bn y = isTag st d bn y := by
        intro d bn y hy
        unfold isTag
        rw [hbufAt', hbufAt_ne y hy]
      have hqj : isTag (spliceRetag st dev blockno i₀ j) (bufAt st x).dev (bufAt st x).blockno j = false := by
        cases hq : isTag (spliceRetag st dev blockno i₀ j) (bufAt st x).dev (bufAt st x).blockno j
        · rfl
        · rw [isTag_true_iff, hbufAt', hbufAt_j] at hq
          exact absurd ⟨hq.1.symm, hq.2.symm⟩ hpair
      have hmono : (bucketAt st ((bufAt st x).blockno % NBUCKETS)).find?
          (isTag (spliceRetag st dev blockno i₀ j) (bufAt st x).dev (bufAt st x).blockno) = some x := by
        refine find?_mono hfindx ?_ ?_
        · rw [isTag_true_iff, hbufAt', hbufAt_ne x hxj]
          exact ⟨rfl, rfl⟩
        · intro y hy hq
          by_cases hyj : y = j
          · rw [hyj] at hq
            rw [hqj] at hq
            exact Bool.noConfusion hq
          · rwa [htagne _ _ y hyj] at hq
      by_cases hibn : (bufAt st x).blockno % NBUCKETS = blockno % NBUCKETS
      · rw [hibn, hba_bn]
        rw [hibn] at hmono
        rw [find?_cons_false hqj]
        exact hmono
      · by_cases hii₀ : (bufAt st x).blockno % NBUCKETS = i₀
        · rw [hii₀, hba_i₀]
          rw [hii₀] at hmono
          rw [find?_erase hqj]
          exact hmono
        · rw [hba_other _ hii₀ hibn]
          exact hmono

/-! ## Invariant preservation for whole operations -/

theorem BcacheInv_bget (NBUF : Nat) (st : BCache) (dev blockno j : Nat) (st' : BCache)
    (hInv : BcacheInv NBUF st) (h : bget st dev blockno = some (j, st')) :
    BcacheInv NBUF st' := by
  cases hfind : (bucketAt st (blockno % NBUCKETS)).find? (isTag st dev blockno) with
  | some j1 =>
    rw [bget_hit st dev blockno j1 hfind] at h
    injection h with h'
    injection h' with h1 h2
    rw [← h2]
    exact BcacheInv_refHit NBUF st dev blockno j1 hInv hfind
  | none =>
    cases hfree : (bucketAt st (blockno % NBUCKETS)).find? (isFree st) with
    | some j1 =>
      rw [bget_local st dev blockno j1 hfind hfree] at h
      injection h with h'
      injection h' with h1 h2
      rw [← h2]
      exact BcacheInv_retagLocal NBUF st dev blockno j1 hInv hfind hfree
    | none =>
      rw [bget_steal st dev blockno hfind hfree] at h
      rcases stealBuf_spec st dev blockno (blockno % NBUCKETS) NBUCKETS 0 with
        ⟨hnone', _⟩ | ⟨i₀, j₀, _, h2, h3, h4, _, h6⟩
      · rw [hnone'] at h
        exact Option.noConfusion h
      · rw [h6] at h
        injection h with h'
        injection h' with ha hb
        rw [← hb]
        exact BcacheInv_spliceRetag NBUF st dev blockno i₀ j₀ hInv hfind (by omega) h3 h4

theorem bread_eq_none (disk : Nat → Nat → Nat) (st : BCache) (dev blockno : Nat)
    (hg : bget st dev blockno = none) : bread disk st dev blockno = none := by
  unfold bread
  rw [hg]

theorem bread_eq_valid (disk : Nat → Nat → Nat) (st : BCache) (dev blockno j : Nat)
    (st1 : BCache) (hg : bget st dev blockno = some (j, st1))
    (hv : (bufAt st1 j).valid = true) : bread disk st dev blockno = some (j, st1) := by
  unfold bread
  rw [hg]
  simp only [hv, if_true]

theorem bread_eq_load (disk : Nat → Nat → Nat) (st : BCache) (dev blockno j : Nat)
    (st1 : BCache) (hg : bget st dev blockno = some (j, st1))
    (hv : (bufAt st1 j).valid = false) :
    bread disk st dev blockno = some (j, setBuf st1 j
      { bufAt st1 j with
          data := disk (bufAt st1 j).dev (bufAt st1 j).blockno
          valid := true }) := by
  unfold bread
  rw [hg]
  simp only [hv, Bool.false_eq_true, if_false]

theorem BcacheInv_bread (NBUF : Nat) (disk : Nat → Nat → Nat) (st : BCache)
    (dev blockno j : Nat) (st' : BCache)
    (hInv : BcacheInv NBUF st) (h : bread disk st dev blockno = some (j, st')) :
    BcacheInv NBUF st' := by
  cases hg : bget st dev blockno with
  | none =>
    rw [bread_eq_none disk st dev blockno hg] at h
    exact Option.noConfusion h
  | some p =>
    obtain ⟨j1, st1⟩ := p
    have hInv1 := BcacheInv_bget NBUF st dev blockno j1 st1 hInv hg
    cases hv : (bufAt st1 j1).valid with
    | true =>
      rw [bread_eq_valid disk st dev blockno j1 st1 hg hv] at h
      injection h with h'
      injection h' with h1 h2
      rw [← h2]
      exact hInv1
    | false =>
      rw [bread_eq_load disk st dev blockno j1 st1 hg hv] at h
      injection h with h'
      injection h' with h1 h2
      rw [← h2]
      exact BcacheInv_setBuf_meta NBUF st1 j1 _ hInv1 rfl rfl
        (refcnt_lt_U32 NBUF st1 hInv1.1 hInv1.2.2.2.2.1 j1) (fun hh => hh)

/-! ## Observable effects of the bget branches -/

/-- The four-way branch structure of `bget`, with the scan conditions
that select each branch. -/
theorem bget_branches (st : BCache) (dev blockno j : Nat) (st' : BCache)
    (h : bget st dev blockno = some (j, st')) :
    ((bucketAt st (blockno % NBUCKETS)).find? (isTag st dev blockno) = some j ∧
      st' = refHit st j) ∨
    ((bucketAt st (blockno % NBUCKETS)).find? (isTag st dev blockno) = none ∧
      (bucketAt st (blockno % NBUCKETS)).find? (isFree st) = some j ∧
      st' = retagLocal st dev blockno j) ∨
    ((bucketAt st (blockno % NBUCKETS)).find? (isTag st dev blockno) = none ∧
      (bucketAt st (blockno % NBUCKETS)).find? (isFree st) = none ∧
      ∃ i₀, i₀ < NBUCKETS ∧ i₀ ≠ blockno % NBUCKETS ∧
        (bucketAt st i₀).reverse.find? (isFree st) = some j ∧
        (∀ i, i < i₀ → i ≠ blockno % NBUCKETS →
          (bucketAt st i).reverse.find? (isFree st) = none) ∧
        st' = spliceRetag st dev blockno i₀ j) := by
  cases hfind : (bucketAt st (blockno % NBUCKETS)).find? (isTag st dev blockno) with
  | some j1 =>
    rw [bget_hit st dev blockno j1 hfind] at h
    injection h with h'
    injection h' with h1 h2
    subst h1
    exact Or.inl ⟨rfl, h2.symm⟩
  | none =>
    cases hfree : (bucketAt st (blockno % NBUCKETS)).find? (isFree st) with
    | some j1 =>
      rw [bget_local st dev blockno j1 hfind hfree] at h
      injection h with h'
      injection h' with h1 h2
      subst h1
      exact Or.inr (Or.inl ⟨rfl, rfl, h2.symm⟩)
    | none =>
      rw [bget_steal st dev blockno hfind hfree] at h
      rcases stealBuf_spec st dev blockno (blockno % NBUCKETS) NBUCKETS 0 with
        ⟨hnone', _⟩ | ⟨i₀, j₀, _, h2, h3, h4, h5, h6⟩
      · rw [hnone'] at h
        exact Option.noConfusion h
      · rw [h6] at h
        injection h with h'
        injection h' with ha hb
        subst ha
        refine Or.inr (Or.inr ⟨rfl, rfl, i₀, by omega, h3, h4, ?_, hb.symm⟩)
        intro i hlt hne
        exact h5 i (Nat.zero_le i) hlt hne

theorem spliceRetag_bufs (st : BCache) (dev blockno i₀ j : Nat) :
    (spliceRetag st dev blockno i₀ j).bufs = (retagLocal st dev blockno j).bufs := rfl

theorem spliceRetag_bufAt (st : BCache) (dev blockno i₀ j x : Nat) :
    bufAt (spliceRetag st dev blockno i₀ j) x = bufAt (retagLocal st dev blockno j) x := rfl

theorem spliceRetag_buckets (st : BCache) (dev blockno i₀ j : Nat)
    (hi₀bn : i₀ ≠ blockno % NBUCKETS) :
    (spliceRetag st dev blockno i₀ j).buckets =
      (st.buckets.set i₀ ((bucketAt st i₀).erase j)).set (blockno % NBUCKETS)
        (j :: bucketAt st (blockno % NBUCKETS)) := by
  show (st.buckets.set i₀ ((st.buckets.getD i₀ []).erase j)).set (blockno % NBUCKETS)
      (j :: (st.buckets.set i₀ ((st.buckets.getD i₀ []).erase j)).getD (blockno % NBUCKETS) []) = _
  rw [getD_set_ne _ _ _ _ _ hi₀bn]
  rfl

theorem spliceRetag_bucket_home (st : BCache) (dev blockno i₀ j : Nat)
    (hA2 : st.buckets.length = NBUCKETS) (hi₀bn : i₀ ≠ blockno % NBUCKETS) :
    bucketAt (spliceRetag st dev blockno i₀ j) (blockno % NBUCKETS) =
      j :: bucketAt st (blockno % NBUCKETS) := by
  unfold bucketAt
  rw [spliceRetag_buckets st dev blockno i₀ j hi₀bn]
  refine getD_set_self _ _ _ _ ?_
  simp [hA2]
  exact Nat.mod_lt _ (by norm_num [NBUCKETS])

theorem spliceRetag_bucket_foreign (st : BCache) (dev blockno i₀ j : Nat)
    (hA2 : st.buckets.length = NBUCKETS) (hi₀ : i₀ < NBUCKETS)
    (hi₀bn : i₀ ≠ blockno % NBUCKETS) :
    bucketAt (spliceRetag st dev blockno i₀ j) i₀ = (bucketAt st i₀).erase j := by
  unfold bucketAt
  rw [spliceRetag_buckets st dev blockno i₀ j hi₀bn,
    getD_set_ne _ _ _ _ _ (fun h => hi₀bn h.symm)]
  exact getD_set_self _ _ _ _ (by omega)

theorem spliceRetag_bucket_other (st : BCache) (dev blockno i₀ j i : Nat)
    (hi₀bn : i₀ ≠ blockno % NBUCKETS) (h1 : i ≠ i₀) (h2 : i ≠ blockno % NBUCKETS) :
    bucketAt (spliceRetag st dev blockno i₀ j) i = bucketAt st i := by
  unfold bucketAt
  rw [spliceRetag_buckets st dev blockno i₀ j hi₀bn,
    getD_set_ne _ _ _ _ _ (fun h => h2 h.symm),
    getD_set_ne _ _ _ _ _ (fun h => h1 h.symm)]

theorem isFree_refcnt (st : BCache) (j : Nat) (h : isFree st j = true) :
    (bufAt st j).refcnt = 0 := by
  simpa [isFree] using h

/-- The fields of the buffer returned by a successful `bget`, uniform
over the three branches: the reference count is the `uint` increment of
the old one (phases 2 and 3 set it from 0 to 1), and the buffer is
returned with its sleep-lock held. -/
theorem bget_buf_fields (NBUF : Nat) (st : BCache) (dev blockno j : Nat) (st' : BCache)
    (hInv : BcacheInv NBUF st) (h : bget st dev blockno = some (j, st')) :
    j < NBUF ∧
    (bufAt st' j).refcnt = ((bufAt st j).refcnt + 1) % U32 ∧
    (bufAt st' j).held = true ∧
    (∀ x, x ≠ j → bufAt st' x = bufAt st x) := by
  obtain ⟨hA, hA2, hB, hC, hD, hE⟩ := hInv
  have hbnlt : blockno % NBUCKETS < NBUCKETS := Nat.mod_lt _ (by norm_num [NBUCKETS])
  rcases bget_branches st dev blockno j st' h with
    ⟨hfind, rfl⟩ | ⟨hnone, hfree, rfl⟩ | ⟨hnone, hfreeN, i₀, hi₀, hi₀bn, hfind, hmin, rfl⟩
  · have hmem : j ∈ bucketAt st (blockno % NBUCKETS) := List.mem_of_find?_eq_some hfind
    have hj : j < NBUF := (hB _ hbnlt j hmem).1
    have hj' : j < st.bufs.length := by omega
    refine ⟨hj, ?_, ?_, ?_⟩
    · show (bufAt (setBuf st j _) j).refcnt = _
      rw [bufAt_setBuf_self st j _ hj']
    · show (bufAt (setBuf st j _) j).held = true
      rw [bufAt_setBuf_self st j _ hj']
    · intro x hx
      exact bufAt_setBuf_ne st j x _ (fun hh => hx hh.symm)
  · have hmem : j ∈ bucketAt st (blockno % NBUCKETS) := List.mem_of_find?_eq_some hfree
    have hj : j < NBUF := (hB _ hbnlt j hmem).1
    have hj' : j < st.bufs.length := by omega
    have hrc0 : (bufAt st j).refcnt = 0 := isFree_refcnt st j (List.find?_some hfree)
    refine ⟨hj, ?_, ?_, ?_⟩
    · show (bufAt (setBuf st j _) j).refcnt = _
      rw [bufAt_setBuf_self st j _ hj', hrc0]
      norm_num [U32]
    · show (bufAt (setBuf st j _) j).held = true
      rw [bufAt_setBuf_self st j _ hj']
    · intro x hx
      exact bufAt_setBuf_ne st j x _ (fun hh => hx hh.symm)
  · have hmem : j ∈ bucketAt st i₀ :=
      List.mem_reverse.1 (List.mem_of_find?_eq_some hfind)
    have hj : j < NBUF := (hB _ hi₀ j hmem).1
    have hj' : j < st.bufs.length := by omega
    have hrc0 : (bufAt st j).refcnt = 0 := isFree_refcnt st j (List.find?_some hfind)
    refine ⟨hj, ?_, ?_, ?_⟩
    · rw [spliceRetag_bufAt]
      show (bufAt (setBuf st j _) j).refcnt = _
      rw [bufAt_setBuf_self st j _ hj', hrc0]
      norm_num [U32]
    · rw [spliceRetag_bufAt]
      show (bufAt (setBuf st j _) j).held = true
      rw [bufAt_setBuf_self st j _ hj']
    · intro x hx
      rw [spliceRetag_bufAt]
      exact bufAt_setBuf_ne st j x _ (fun hh => hx hh.symm)

/-! ## The invariant at initialization -/

theorem set_getD_self (bks : List (List Nat)) :
    bks.set 0 (bks.getD 0 []) = bks := by
  cases bks with
  | nil => rfl
  | cons x xs => simp [List.getD]

theorem foldl_consAt (l : List Nat) (bks : List (List Nat)) (h0 : 0 < bks.length) :
    l.foldl (fun b j => b.set 0 (j :: b.getD 0 [])) bks
      = bks.set 0 (l.reverse ++ bks.getD 0 []) := by
  induction l generalizing bks with
  | nil =>
    rw [List.foldl_nil, List.reverse_nil, List.nil_append, set_getD_self]
  | cons a l ih =>
    rw [List.foldl_cons, ih _ (by simpa using h0)]
    rw [getD_set_self _ _ _ _ h0, List.set_set]
    congr 1
    simp

theorem binit_buckets (NBUF : Nat) :
    (binit NBUF).buckets = (List.replicate NBUCKETS ([] : List Nat)).set 0
      ((List.range NBUF).reverse) := by
  show (List.range NBUF).foldl
      (fun bks j => bks.set (buf0.blockno % NBUCKETS) (j :: bks.getD (buf0.blockno % NBUCKETS) []))
      (List.replicate NBUCKETS []) = _
  have h0 : buf0.blockno % NBUCKETS = 0 := rfl
  rw [h0]
  rw [foldl_consAt _ _ (by norm_num [NBUCKETS])]
  congr 1
  simp [NBUCKETS]

theorem binit_bufAt (NBUF j : Nat) (h : j < NBUF) : bufAt (binit NBUF) j = buf0 := by
  simp [binit, bufAt, List.getD, List.getElem?_eq_getElem (by simpa using h : j < (List.replicate NBUF buf0).length)]

theorem count_range (n j : Nat) : (List.range n).count j = if j < n then 1 else 0 := by
  induction n with
  | zero => simp
  | succ n ih =>
    rw [List.range_succ, List.count_append, ih]
    by_cases h : j = n
    · subst h
      simp [Nat.lt_irrefl, Nat.lt_succ_self]
    · rcases Nat.lt_trichotomy j n with h' | h' | h'
      · simp [h', Nat.lt_succ_of_lt h', List.count_singleton, h]
      · exact absurd h' h
      · have : ¬ j < n := by omega
        have : ¬ j < n + 1 := by omega
        simp [*, List.count_singleton, h]

theorem bucketAt_binit_zero (NBUF : Nat) :
    bucketAt (binit NBUF) 0 = (List.range NBUF).reverse := by
  unfold bucketAt
  rw [binit_buckets]
  exact getD_set_self _ _ _ _ (by norm_num [NBUCKETS])

theorem bucketAt_binit_pos (NBUF i : Nat) (h : i ≠ 0) :
    bucketAt (binit NBUF) i = [] := by
  unfold bucketAt
  rw [binit_buckets, getD_set_ne _ _ _ _ _ (fun hh => h hh.symm)]
  rcases Nat.lt_or_ge i NBUCKETS with h' | h'
  · simp [List.getD, List.getElem?_eq_getElem (by simpa [NBUCKETS] using h' : i < (List.replicate NBUCKETS ([] : List Nat)).length)]
  · simp [List.getD, List.getElem?_eq_none (by simpa [NBUCKETS] using h' : (List.replicate NBUCKETS ([] : List Nat)).length ≤ i)]

theorem BcacheInv_binit (NBUF : Nat) : BcacheInv NBUF (binit NBUF) := by
  have hbuf0 : ∀ j, j < NBUF → bufAt (binit NBUF) j = buf0 := binit_bufAt NBUF
  refine ⟨by simp [binit], by rw [binit_buckets]; simp [NBUCKETS], ?_, ?_, ?_, ?_⟩
  · intro i hi x hx
    by_cases h0 : i = 0
    · subst h0
      rw [bucketAt_binit_zero] at hx
      have hxlt : x < NBUF := by
        have := List.mem_reverse.1 hx
        simpa using this
      refine ⟨hxlt, ?_⟩
      rw [hbuf0 x hxlt]
      rfl
    · rw [bucketAt_binit_pos NBUF i h0] at hx
      exact absurd hx (List.not_mem_nil x)
  · intro x hx
    rw [hbuf0 x hx]
    have : (buf0.blockno % NBUCKETS) = 0 := rfl
    rw [this, bucketAt_binit_zero, List.count_reverse, count_range]
    simp [hx]
  · intro x hx
    rw [hbuf0 x hx]
    norm_num [buf0, U32]
  · intro x hx hrc
    rw [hbuf0 x hx] at hrc
    norm_num [buf0] at hrc

/-- Every reachable state of the cache satisfies the invariant. -/
theorem Reach_BcacheInv (disk : Nat → Nat → Nat) (NBUF : Nat) (st : BCache)
    (h : Reach disk NBUF st) : BcacheInv NBUF st := by
  induction h with
  | init => exact BcacheInv_binit NBUF
  | @step st1 st2 op h1 hwf hexec ih =>
    cases op with
    | get d bn =>
      simp only [execOp, Option.map_eq_some'] at hexec
      obtain ⟨⟨j, stx⟩, hx, hx2⟩ := hexec
      rw [← hx2]
      exact BcacheInv_bget NBUF st1 d bn j stx ih hx
    | read d bn =>
      simp only [execOp, Option.map_eq_some'] at hexec
      obtain ⟨⟨j, stx⟩, hx, hx2⟩ := hexec
      rw [← hx2]
      exact BcacheInv_bread NBUF disk st1 d bn j stx ih hx
    | rel j =>
      exact BcacheInv_brelse NBUF st1 st2 j ih hwf hexec
    | pin j =>
      simp only [execOp] at hexec
      injection hexec with h'
      rw [← h']
      exact BcacheInv_bpin NBUF st1 j ih hwf
    | unpin j =>
      simp only [execOp] at hexec
      injection hexec with h'
      rw [← h']
      exact BcacheInv_bunpin NBUF st1 j ih hwf

/-! ## Claim theorems for the block cache and the remaining claims -/

/-- What claim C9 asserts of `bwrite` and `brelse` at a given state and
buffer: both panic exactly when the caller does not hold the content
lock; a held `bwrite` performs exactly one synchronous device write of
the buffer's payload at its tagged location and leaves the cache state
unchanged. -/
def LockDisciplineClaim (st : BCache) (j : Nat) : Prop :=
  (bwrite st j = none ↔ (bufAt st j).held = false) ∧
  ((bufAt st j).held = true →
    bwrite st j = some (((bufAt st j).dev, (bufAt st j).blockno, (bufAt st j).data), st)) ∧
  (brelse st j = none ↔ (bufAt st j).held = false)

/-- **C9**: `bwrite` and `brelse` abort fatally iff the caller does not
hold the buffer's content lock; with the lock held, `bwrite` issues one
device write of the payload to the tagged `(dev, blockno)` location and
changes no cache state, and `brelse` does not abort. -/
theorem C9_lock_discipline (st : BCache) (j : Nat) : LockDisciplineClaim st j := by
  refine ⟨⟨fun h => ?_, fun h => ?_⟩, fun h => ?_, brelse_none_iff st j⟩
  · by_contra hh
    have hh' : (bufAt st j).held = true := by
      cases hq : (bufAt st j).held
      · exact absurd hq hh
      · rfl
    unfold bwrite at h
    rw [if_neg (by simp [hh'])] at h
    exact Option.noConfusion h
  · unfold bwrite
    rw [if_pos h]
  · unfold bwrite
    rw [if_neg (by simp [h])]

/-- Witness for C9 on a held and an unheld concrete buffer. -/
theorem C9_lock_discipline_witness :
    LockDisciplineClaim (refHit (binit 1) 0) 0 ∧ LockDisciplineClaim (binit 1) 0 :=
  ⟨C9_lock_discipline (refHit (binit 1) 0) 0, C9_lock_discipline (binit 1) 0⟩

/-- What claim C5 asserts of `kfree`: the call panics exactly when the
frame is unaligned or outside `[end, PHYSTOP)`; a successful call
pushes the frame on the head of the calling CPU's free list and leaves
every other CPU's list unchanged. -/
def KfreeClaim (endA phystop : Nat) (st : KState) (cid pa : Nat) : Prop :=
  (kfree endA phystop st cid pa = none ↔
    (pa % PGSIZE ≠ 0 ∨ pa < endA ∨ phystop ≤ pa)) ∧
  (∀ st', kfree endA phystop st cid pa = some st' →
    st'.freelists.getD cid [] = pa :: st.freelists.getD cid [] ∧
    ∀ i, i ≠ cid → st'.freelists.getD i [] = st.freelists.getD i [])

/-- **C5**: `kfree(pa)` aborts fatally iff `pa` is not page-aligned,
lies below `end`, or at or above `PHYSTOP`; for every valid frame it
pushes the frame onto the head of the calling CPU's partition list and
leaves all other partitions unchanged. -/
theorem C5_kfree_guard (endA phystop NCPU : Nat) (st : KState) (cid pa : Nat)
    (hlen : st.freelists.length = NCPU) (hcid : cid < NCPU) :
    KfreeClaim endA phystop st cid pa := by
  have hiff : kfree endA phystop st cid pa = none ↔
      (pa % PGSIZE ≠ 0 ∨ pa < endA ∨ phystop ≤ pa) := by
    unfold kfree
    by_cases hc : pa % PGSIZE ≠ 0 ∨ pa < endA ∨ phystop ≤ pa
    · rw [if_pos hc]
      exact ⟨fun _ => hc, fun _ => rfl⟩
    · rw [if_neg hc]
      exact ⟨fun hh => absurd hh (by simp), fun hh => absurd hh hc⟩
  refine ⟨hiff, fun st' hsome => ?_⟩
  have hg : ¬(pa % PGSIZE ≠ 0 ∨ pa < endA ∨ phystop ≤ pa) := by
    intro hg
    rw [hiff.2 hg] at hsome
    exact Option.noConfusion hsome
  unfold kfree at hsome
  rw [if_neg hg] at hsome
  injection hsome with h'
  rw [← h']
  constructor
  · exact getD_set_self _ _ _ _ (by omega)
  · intro i hi
    exact getD_set_ne _ _ _ _ _ (fun h => hi h.symm)

/-- Witness for C5: a valid frame on a one-CPU allocator. -/
theorem C5_kfree_guard_witness :
    (([[8192]] : List (List Nat)).length = 1 ∧ 0 < 1) ∧
    KfreeClaim 4096 12288 ⟨[[8192]], fun _ => 7⟩ 0 4096 :=
  ⟨⟨rfl, by decide⟩, C5_kfree_guard 4096 12288 1 ⟨[[8192]], fun _ => 7⟩ 0 4096 rfl (by decide)⟩

/-- Probe one byte of the memory of an optional allocator state. -/
def memProbe (o : Option KState) (a : Nat) : Option Nat :=
  o.map fun s => s.mem a

/-- **C6 counterexample**: free the valid frame at address 4096 into an
allocator with an empty free list (`end = 4096`, `PHYSTOP = 12288`,
memory previously all-7).  `kfree` succeeds, but the frame's first byte
then holds `0` — the low byte of the null free-list link written by
`r->next = kmems[cid].freelist` after the poison `memset` — not the
free-poison byte `1` the claim requires for every byte of the page. -/
theorem C6_counterexample :
    memProbe (kfree 4096 12288 ⟨[[]], fun _ => 7⟩ 0 4096) 4096 = some 0 ∧
    (0 : Nat) ≠ 1 := by
  constructor
  · decide
  · decide

/-- The amended claim C6: after `kfree` every byte of the page holds
the free-poison byte `1` *except the first 8 bytes, which hold the
intrusive free-list link*; after a successful `kalloc` every byte of
the returned page holds the alloc-poison byte `5`; the two poison bytes
are non-zero and distinct. -/
def PoisonClaim (endA phystop NCPU : Nat) (st : KState) (cid pa : Nat) : Prop :=
  (∀ st', kfree endA phystop st cid pa = some st' →
    ∀ off, 8 ≤ off → off < PGSIZE → st'.mem (pa + off) = 1) ∧
  (∀ cid' r st', kalloc NCPU st cid' = (some r, st') →
    ∀ off, off < PGSIZE → st'.mem (r + off) = 5) ∧
  (1 : Nat) ≠ 5 ∧ (1 : Nat) ≠ 0 ∧ (5 : Nat) ≠ 0

/-- **C6 (amended)**: poison visibility, restricted to the bytes the
intrusive free-list link does not overwrite. -/
theorem C6_poison_amended (endA phystop NCPU : Nat) (st : KState) (cid pa : Nat) :
    PoisonClaim endA phystop NCPU st cid pa := by
  refine ⟨?_, ?_, by decide, by decide, by decide⟩
  · intro st' hsome off h8 hlt
    have hg : ¬(pa % PGSIZE ≠ 0 ∨ pa < endA ∨ phystop ≤ pa) := by
      intro hg
      unfold kfree at hsome
      rw [if_pos hg] at hsome
      exact Option.noConfusion hsome
    unfold kfree at hsome
    rw [if_neg hg] at hsome
    injection hsome with h'
    rw [← h']
    show store64 (memset st.mem pa 1 PGSIZE) pa
      (headAddr (st.freelists.getD cid [])) (pa + off) = 1
    unfold store64 memset
    rw [if_neg (by omega), if_pos (by unfold PGSIZE at hlt ⊢; omega)]
  · intro cid' r st' hsome off hlt
    cases hfl : st.freelists.getD cid' [] with
    | cons r1 rest =>
      rw [kalloc_local NCPU st cid' r1 rest hfl] at hsome
      injection hsome with h1 h2
      injection h1 with h1
      rw [← h2]
      show memset st.mem r1 5 PGSIZE (r + off) = 5
      unfold memset
      rw [if_pos (by unfold PGSIZE at hlt ⊢; omega)]
    | nil =>
      cases hsteal : kallocSteal st cid' 0 NCPU with
      | none =>
        rw [kalloc_steal_none NCPU st cid' hfl hsteal] at hsome
        injection hsome with h1 h2
        exact Option.noConfusion h1
      | some p =>
        obtain ⟨r1, st1⟩ := p
        rw [kalloc_steal_some NCPU st cid' r1 st1 hfl hsteal] at hsome
        injection hsome with h1 h2
        injection h1 with h1
        rw [← h2]
        show memset st1.mem r1 5 PGSIZE (r + off) = 5
        unfold memset
        rw [if_pos (by unfold PGSIZE at hlt ⊢; omega)]

/-- Witness for the amended C6 at a concrete allocator state. -/
theorem C6_poison_amended_witness :
    PoisonClaim 4096 12288 1 ⟨[[]], fun _ => 7⟩ 0 4096 :=
  C6_poison_amended 4096 12288 1 ⟨[[]], fun _ => 7⟩ 0 4096

/-- **C4**: exhaustion is asymmetric.  When every partition is empty,
`kalloc` returns the null frame as an ordinary value, with the
allocator state unchanged; when the home bucket holds no matching tag
and no bucket holds a reference-count-zero buffer, `bget` panics
(`none`), returning no value at all. -/
theorem C4_exhaustion_asymmetry (NCPU : Nat) (kst : KState) (cid : Nat)
    (dev blockno : Nat) (st : BCache)
    (hklen : kst.freelists.length = NCPU) (hcid : cid < NCPU)
    (hkall : ∀ i, i < NCPU → kst.freelists.getD i [] = [])
    (hnone : (bucketAt st (blockno % NBUCKETS)).find? (isTag st dev blockno) = none)
    (hfree : (bucketAt st (blockno % NBUCKETS)).find? (isFree st) = none)
    (hforeign : ∀ i, i < NBUCKETS → i ≠ blockno % NBUCKETS →
      (bucketAt st i).reverse.find? (isFree st) = none) :
    kalloc NCPU kst cid = (none, kst) ∧ bget st dev blockno = none := by
  constructor
  · have hlocal := hkall cid hcid
    rcases kallocSteal_spec kst cid NCPU 0 with ⟨hn, _⟩ | ⟨i₀, r, rest, _, h2, h3, h4, _, _⟩
    · exact kalloc_steal_none NCPU kst cid hlocal hn
    · exact absurd h4 (by rw [hkall i₀ (by omega)]; simp)
  · rw [bget_steal st dev blockno hnone hfree]
    rcases stealBuf_spec st dev blockno (blockno % NBUCKETS) NBUCKETS 0 with
      ⟨hn, _⟩ | ⟨i₀, j₀, _, h2, h3, h4, _, _⟩
    · exact hn
    · exact absurd h4 (by rw [hforeign i₀ (by omega) h3]; simp)

/-- **C3**: in every reachable state of the cache, at most one buffer
of the pool with a positive reference count carries a given
`(dev, blockno)` tag.  (Reachability encodes matched usage: releases
and un/pins only target buffers with an outstanding reference.) -/
theorem C3_identity_uniqueness (disk : Nat → Nat → Nat) (NBUF : Nat) (st : BCache)
    (h : Reach disk NBUF st) (j j' : Nat) (hj : j < NBUF) (hj' : j' < NBUF)
    (hrc : 1 ≤ (bufAt st j).refcnt) (hrc' : 1 ≤ (bufAt st j').refcnt)
    (hdev : (bufAt st j).dev = (bufAt st j').dev)
    (hblk : (bufAt st j).blockno = (bufAt st j').blockno) : j = j' :=
  liveFirst_unique NBUF st (Reach_BcacheInv disk NBUF st h).2.2.2.2.2
    j j' hj hj' hrc hrc' hdev hblk

/-- Witness for C3 after one `bget` on the freshly initialized cache. -/
theorem C3_identity_uniqueness_witness :
    (Reach (fun _ _ => 0) 2 (refHit (binit 2) 1) ∧
      1 < 2 ∧ 1 ≤ (bufAt (refHit (binit 2) 1) 1).refcnt) ∧ (1 : Nat) = 1 :=
  have hreach : Reach (fun _ _ => 0) 2 (refHit (binit 2) 1) :=
    @Reach.step (fun _ _ => 0) 2 (binit 2) (refHit (binit 2) 1) (BOp.get 0 0)
      Reach.init trivial (by decide)
  ⟨⟨hreach, by decide, by decide⟩,
    C3_identity_uniqueness (fun _ _ => 0) 2 (refHit (binit 2) 1) hreach 1 1
      (by decide) (by decide) (by decide) (by decide) rfl rfl⟩

/-- What claim C10 asserts of a cache state: every pool buffer lies on
the list of exactly the bucket its current `blockno` hashes to. -/
def HomeBucketClaim (NBUF : Nat) (st : BCache) : Prop :=
  ∀ j, j < NBUF →
    j ∈ bucketAt st ((bufAt st j).blockno % NBUCKETS) ∧
    ∀ i, i < NBUCKETS → j ∈ bucketAt st i → i = (bufAt st j).blockno % NBUCKETS

/-- **C10**: after `binit` and after every (well-formed) operation,
every buffer resides in the list of exactly the bucket numbered
`blockno % NBUCKETS`; in particular at initialization every buffer
(tagged with blockno 0) lies on bucket 0's list. -/
theorem C10_home_bucket (disk : Nat → Nat → Nat) (NBUF : Nat) (st : BCache)
    (h : Reach disk NBUF st) :
    HomeBucketClaim NBUF st ∧ ∀ j, j < NBUF → j ∈ bucketAt (binit NBUF) 0 := by
  obtain ⟨hA, hA2, hB, hC, hD, hE⟩ := Reach_BcacheInv disk NBUF st h
  constructor
  · intro j hj
    constructor
    · have := hC j hj
      exact List.count_pos_iff.1 (by omega)
    · intro i hi hmem
      exact ((hB i hi j hmem).2).symm
  · intro j hj
    rw [bucketAt_binit_zero, List.mem_reverse]
    simpa using hj

/-- Witness for C10 at the initial state with two buffers. -/
theorem C10_home_bucket_witness :
    Reach (fun _ _ => 0) 2 (binit 2) ∧
    (HomeBucketClaim 2 (binit 2) ∧ ∀ j, j < 2 → j ∈ bucketAt (binit 2) 0) :=
  ⟨Reach.init, C10_home_bucket (fun _ _ => 0) 2 (binit 2) Reach.init⟩

/-! ### Reference-count effects (claim C7) -/

theorem brelseMove_bucket_home (st : BCache) (j : Nat)
    (hA2 : st.buckets.length = NBUCKETS) :
    bucketAt (brelseMove st j) ((bufAt st j).blockno % NBUCKETS) =
      j :: ((bucketAt st ((bufAt st j).blockno % NBUCKETS)).erase j) := by
  show (((setBuf st j _).buckets.map (fun l => l.erase j)).set
      ((bufAt st j).blockno % NBUCKETS)
      (j :: ((setBuf st j _).buckets.map (fun l => l.erase j)).getD
        ((bufAt st j).blockno % NBUCKETS) [])).getD
      ((bufAt st j).blockno % NBUCKETS) [] = _
  rw [getD_set_self _ _ _ _
      (by simp [setBuf, hA2]; exact Nat.mod_lt _ (by norm_num [NBUCKETS])),
    getD_map_erase]
  rfl

theorem brelseMove_bucket_other (st : BCache) (j i : Nat)
    (hi : i ≠ (bufAt st j).blockno % NBUCKETS) :
    bucketAt (brelseMove st j) i = (bucketAt st i).erase j := by
  show (((setBuf st j _).buckets.map (fun l => l.erase j)).set
      ((bufAt st j).blockno % NBUCKETS)
      (j :: ((setBuf st j _).buckets.map (fun l => l.erase j)).getD
        ((bufAt st j).blockno % NBUCKETS) [])).getD i [] = _
  rw [getD_set_ne _ _ _ _ _ (fun h => hi h.symm), getD_map_erase]
  rfl

theorem brelseMove_refcnt (st : BCache) (j : Nat) (hj : j < st.bufs.length) :
    (bufAt (brelseMove st j) j).refcnt = 0 := by
  show (bufAt (setBuf st j _) j).refcnt = 0
  rw [bufAt_setBuf_self st j _ hj]

/-- A successful `brelse` decrements the reference count by exactly one
(on a well-formed, positive `uint` count). -/
theorem brelse_refcnt (NBUF : Nat) (st : BCache) (j : Nat)
    (hInv : BcacheInv NBUF st) (hwf : 1 ≤ (bufAt st j).refcnt)
    (hheld : (bufAt st j).held = true) :
    ∃ st', brelse st j = some st' ∧
      (bufAt st' j).refcnt = (bufAt st j).refcnt - 1 := by
  obtain ⟨hA, hA2, hB, hC, hD, hE⟩ := hInv
  have hj' : j < st.bufs.length := lt_of_held st j hheld
  have hlt : (bufAt st j).refcnt < U32 := hD j (by omega)
  have hdec := udecr_eq (bufAt st j).refcnt hwf hlt
  by_cases h0 : ((bufAt st j).refcnt + (U32 - 1)) % U32 = 0
  · refine ⟨brelseMove st j, brelse_zero st j hheld h0, ?_⟩
    rw [brelseMove_refcnt st j hj']
    exact (hdec.symm.trans h0).symm
  · refine ⟨setBuf st j _, brelse_pos st j hheld h0, ?_⟩
    rw [bufAt_setBuf_self st j _ hj']
    exact hdec

/-- The reference-count algebra claim C7 asserts of a cache state:
`bget` is a `uint` increment of the returned buffer's count (phases 2
and 3 go from 0 to 1), a well-formed `brelse` an exact decrement,
`bpin`/`bunpin` an exact increment/decrement with no sleep-lock
condition, and a `bget` followed by its matching `brelse` restores the
count.  Counts are naturals, so no value is ever negative; matched
usage (the `1 ≤ refcnt` premises) is exactly what makes each decrement
exact rather than a `uint` wrap-around. -/
def RefcntClaim (NBUF : Nat) (st : BCache) : Prop :=
  (∀ dev blockno j st', bget st dev blockno = some (j, st') →
    (bufAt st' j).refcnt = ((bufAt st j).refcnt + 1) % U32) ∧
  (∀ j st', 1 ≤ (bufAt st j).refcnt → brelse st j = some st' →
    (bufAt st' j).refcnt = (bufAt st j).refcnt - 1) ∧
  (∀ j, j < NBUF → (bufAt st j).refcnt + 1 < U32 →
    (bufAt (bpin st j) j).refcnt = (bufAt st j).refcnt + 1) ∧
  (∀ j, 1 ≤ (bufAt st j).refcnt →
    (bufAt (bunpin st j) j).refcnt = (bufAt st j).refcnt - 1) ∧
  (∀ dev blockno j st', bget st dev blockno = some (j, st') →
    (bufAt st j).refcnt + 1 < U32 →
    ∃ st'', brelse st' j = some st'' ∧
      (bufAt st'' j).refcnt = (bufAt st j).refcnt)

/-- **C7**: reference-count conservation. -/
theorem C7_refcount_conservation (NBUF : Nat) (st : BCache)
    (hInv : BcacheInv NBUF st) : RefcntClaim NBUF st := by
  refine ⟨?_, ?_, ?_, ?_, ?_⟩
  · intro dev blockno j st' h
    exact (bget_buf_fields NBUF st dev blockno j st' hInv h).2.1
  · intro j st' hwf hsome
    have hheld : (bufAt st j).held = true := by
      cases hh : (bufAt st j).held
      · rw [(brelse_none_iff st j).2 hh] at hsome
        exact Option.noConfusion hsome
      · rfl
    obtain ⟨st'', hs', hrc⟩ := brelse_refcnt NBUF st j hInv hwf hheld
    rw [hs'] at hsome
    injection hsome with h'
    rw [← h']
    exact hrc
  · intro j hj hlt
    have hj' : j < st.bufs.length := by
      have := hInv.1
      omega
    show (bufAt (setBuf st j _) j).refcnt = _
    rw [bufAt_setBuf_self st j _ hj']
    exact Nat.mod_eq_of_lt hlt
  · intro j hwf
    have hj' : j < st.bufs.length := lt_of_refcnt_pos st j hwf
    have hlt : (bufAt st j).refcnt < U32 :=
      hInv.2.2.2.2.1 j (by have := hInv.1; omega)
    show (bufAt (setBuf st j _) j).refcnt = _
    rw [bufAt_setBuf_self st j _ hj']
    exact udecr_eq _ hwf hlt
  · intro dev blockno j st' h hlt
    obtain ⟨hj, hrc, hheld, _⟩ := bget_buf_fields NBUF st dev blockno j st' hInv h
    have hInv' := BcacheInv_bget NBUF st dev blockno j st' hInv h
    have hrc' : (bufAt st' j).refcnt = (bufAt st j).refcnt + 1 := by
      rw [hrc]
      exact Nat.mod_eq_of_lt hlt
    obtain ⟨st'', hs', hdec⟩ := brelse_refcnt NBUF st' j hInv'
      (by rw [hrc']; omega) hheld
    refine ⟨st'', hs', ?_⟩
    rw [hdec, hrc']
    omega

/-- Witness for C7 at the freshly initialized two-buffer cache. -/
theorem C7_refcount_conservation_witness :
    BcacheInv 2 (binit 2) ∧ RefcntClaim 2 (binit 2) :=
  ⟨by decide, C7_refcount_conservation 2 (binit 2) (by decide)⟩

/-! ### Frame conditions of brelse (claim C8) -/

/-- The frame-effect claim C8 asserts of `brelse` on a buffer whose
content lock the caller holds: the count is decremented; only when it
reaches zero is the buffer unlinked and reinserted at the head of its
current home bucket, all other buckets unchanged; when the count stays
positive, the bucket lists, the buffer's tag, validity flag and bucket
membership are all untouched. -/
def BrelseFrameClaim (st : BCache) (j : Nat) : Prop :=
  ∀ st', brelse st j = some st' →
    (bufAt st' j).refcnt = (bufAt st j).refcnt - 1 ∧
    ((bufAt st j).refcnt - 1 = 0 →
      bucketAt st' ((bufAt st j).blockno % NBUCKETS) =
        j :: ((bucketAt st ((bufAt st j).blockno % NBUCKETS)).erase j) ∧
      (∀ i, i < NBUCKETS → i ≠ (bufAt st j).blockno % NBUCKETS →
        bucketAt st' i = bucketAt st i)) ∧
    (1 ≤ (bufAt st j).refcnt - 1 →
      st'.buckets = st.buckets ∧
      (bufAt st' j).dev = (bufAt st j).dev ∧
      (bufAt st' j).blockno = (bufAt st j).blockno ∧
      (bufAt st' j).valid = (bufAt st j).valid)

/-- **C8**: the frame conditions of `brelse`. -/
theorem C8_brelse_frame (NBUF : Nat) (st : BCache) (j : Nat)
    (hInv : BcacheInv NBUF st) (hwf : 1 ≤ (bufAt st j).refcnt) :
    BrelseFrameClaim st j := by
  intro st' hsome
  have hheld : (bufAt st j).held = true := by
    cases hh : (bufAt st j).held
    · rw [(brelse_none_iff st j).2 hh] at hsome
      exact Option.noConfusion hsome
    · rfl
  obtain ⟨hA, hA2, hB, hC, hD, hE⟩ := hInv
  have hj' : j < st.bufs.length := lt_of_held st j hheld
  have hj : j < NBUF := by omega
  have hlt : (bufAt st j).refcnt < U32 := hD j hj
  have hdec := udecr_eq (bufAt st j).refcnt hwf hlt
  have hnotmem : ∀ i, i ≠ (bufAt st j).blockno % NBUCKETS → j ∉ bucketAt st i := by
    intro i hi hmem
    rcases Nat.lt_or_ge i st.buckets.length with h | h
    · exact hi ((hB i (hA2 ▸ h) j hmem).2.symm ▸ rfl)
    · rw [bucketAt_out st i h] at hmem
      exact List.not_mem_nil j hmem
  by_cases h0 : ((bufAt st j).refcnt + (U32 - 1)) % U32 = 0
  · rw [brelse_zero st j hheld h0] at hsome
    injection hsome with h'
    rw [← h']
    have hrc0 : (bufAt st j).refcnt - 1 = 0 := hdec.symm.trans h0
    refine ⟨by rw [brelseMove_refcnt st j hj', hrc0], fun _ => ?_, fun hpos => by omega⟩
    refine ⟨brelseMove_bucket_home st j hA2, fun i hilt hine => ?_⟩
    rw [brelseMove_bucket_other st j i hine,
      List.erase_of_not_mem (hnotmem i hine)]
  · rw [brelse_pos st j hheld h0] at hsome
    injection hsome with h'
    rw [← h']
    have hrcpos : ¬((bufAt st j).refcnt - 1 = 0) := fun hh => h0 (by rw [hdec]; exact hh)
    refine ⟨?_, fun hz => absurd hz hrcpos, fun _ => ?_⟩
    · rw [bufAt_setBuf_self st j _ hj']
      exact hdec
    · refine ⟨rfl, ?_, ?_, ?_⟩ <;> rw [bufAt_setBuf_self st j _ hj']

/-- Witness for C8: releasing the single held buffer of a one-buffer
cache (its count reaches zero). -/
theorem C8_brelse_frame_witness :
    (BcacheInv 1 (refHit (binit 1) 0) ∧ 1 ≤ (bufAt (refHit (binit 1) 0) 0).refcnt) ∧
    BrelseFrameClaim (refHit (binit 1) 0) 0 :=
  ⟨⟨by decide, by decide⟩,
    C8_brelse_frame 1 (refHit (binit 1) 0) 0 (by decide) (by decide)⟩

/-! ### The four outcomes of bget (claim C1) -/

/-- What claim C1 asserts of a `bget(dev, blockno)` call: exactly one
of four outcomes occurs, tried in this order on the home bucket
`blockno % NBUCKETS` (each later disjunct carries the negation of the
guards of the earlier ones, so the four guards are mutually exclusive
and exhaustive):
1. a buffer tagged `(dev, blockno)` is on the home list — its count is
   `uint`-incremented and it is returned lock-held, with tag, validity
   and all bucket lists unchanged;
2. otherwise some reference-count-zero buffer is on the home list —
   the first one is retagged, invalidated, count set to one, returned
   lock-held, all bucket lists unchanged;
3. otherwise the other buckets are visited in ascending order, each
   list scanned from the tail, and the first count-zero buffer found is
   retagged, invalidated, count set to one, unlinked from the foreign
   list, spliced at the head of the home list, and returned lock-held;
4. otherwise the cache is exhausted and the call panics (`none`). -/
def BgetClaim (st : BCache) (dev blockno : Nat) : Prop :=
  (∃ j st',
    (bucketAt st (blockno % NBUCKETS)).find? (isTag st dev blockno) = some j ∧
    bget st dev blockno = some (j, st') ∧
    (bufAt st' j).dev = (bufAt st j).dev ∧
    (bufAt st' j).blockno = (bufAt st j).blockno ∧
    (bufAt st' j).valid = (bufAt st j).valid ∧
    (bufAt st' j).refcnt = ((bufAt st j).refcnt + 1) % U32 ∧
    (bufAt st' j).held = true ∧
    st'.buckets = st.buckets ∧
    (∀ x, x ≠ j → bufAt st' x = bufAt st x)) ∨
  ((bucketAt st (blockno % NBUCKETS)).find? (isTag st dev blockno) = none ∧
   ∃ j st',
    (bucketAt st (blockno % NBUCKETS)).find? (isFree st) = some j ∧
    bget st dev blockno = some (j, st') ∧
    (bufAt st j).refcnt = 0 ∧
    (bufAt st' j).dev = dev ∧
    (bufAt st' j).blockno = blockno ∧
    (bufAt st' j).valid = false ∧
    (bufAt st' j).refcnt = 1 ∧
    (bufAt st' j).held = true ∧
    st'.buckets = st.buckets ∧
    (∀ x, x ≠ j → bufAt st' x = bufAt st x)) ∨
  ((bucketAt st (blockno % NBUCKETS)).find? (isTag st dev blockno) = none ∧
   (bucketAt st (blockno % NBUCKETS)).find? (isFree st) = none ∧
   ∃ i₀ j st', i₀ < NBUCKETS ∧ i₀ ≠ blockno % NBUCKETS ∧
    (bucketAt st i₀).reverse.find? (isFree st) = some j ∧
    (∀ i, i < i₀ → i ≠ blockno % NBUCKETS →
      (bucketAt st i).reverse.find? (isFree st) = none) ∧
    bget st dev blockno = some (j, st') ∧
    (bufAt st j).refcnt = 0 ∧
    (bufAt st' j).dev = dev ∧
    (bufAt st' j).blockno = blockno ∧
    (bufAt st' j).valid = false ∧
    (bufAt st' j).refcnt = 1 ∧
    (bufAt st' j).held = true ∧
    bucketAt st' (blockno % NBUCKETS) = j :: bucketAt st (blockno % NBUCKETS) ∧
    bucketAt st' i₀ = (bucketAt st i₀).erase j ∧
    (∀ i, i < NBUCKETS → i ≠ blockno % NBUCKETS → i ≠ i₀ →
      bucketAt st' i = bucketAt st i) ∧
    (∀ x, x ≠ j → bufAt st' x = bufAt st x)) ∨
  ((bucketAt st (blockno % NBUCKETS)).find? (isTag st dev blockno) = none ∧
   (bucketAt st (blockno % NBUCKETS)).find? (isFree st) = none ∧
   (∀ i, i < NBUCKETS → i ≠ blockno % NBUCKETS →
     (bucketAt st i).reverse.find? (isFree st) = none) ∧
   bget st dev blockno = none)

/-- **C1**: the four-outcome case analysis of `bget`. -/
theorem C1_bget_cases (NBUF : Nat) (st : BCache) (dev blockno : Nat)
    (hInv : BcacheInv NBUF st) : BgetClaim st dev blockno := by
  obtain ⟨hA, hA2, hB, hC, hD, hE⟩ := hInv
  have hbnlt : blockno % NBUCKETS < NBUCKETS := Nat.mod_lt _ (by norm_num [NBUCKETS])
  unfold BgetClaim
  cases hfind : (bucketAt st (blockno % NBUCKETS)).find? (isTag st dev blockno) with
  | some j =>
    have hmem := List.mem_of_find?_eq_some hfind
    have hj' : j < st.bufs.length := by
      have := (hB _ hbnlt j hmem).1
      omega
    refine Or.inl ⟨j, refHit st j, rfl, bget_hit st dev blockno j hfind,
      ?_, ?_, ?_, ?_, ?_, rfl, ?_⟩
    · show (bufAt (setBuf st j _) j).dev = _
      rw [bufAt_setBuf_self st j _ hj']
    · show (bufAt (setBuf st j _) j).blockno = _
      rw [bufAt_setBuf_self st j _ hj']
    · show (bufAt (setBuf st j _) j).valid = _
      rw [bufAt_setBuf_self st j _ hj']
    · show (bufAt (setBuf st j _) j).refcnt = _
      rw [bufAt_setBuf_self st j _ hj']
    · show (bufAt (setBuf st j _) j).held = true
      rw [bufAt_setBuf_self st j _ hj']
    · intro x hx
      exact bufAt_setBuf_ne st j x _ (fun hh => hx hh.symm)
  | none =>
  cases hfree : (bucketAt st (blockno % NBUCKETS)).find? (isFree st) with
  | some j =>
    have hmem := List.mem_of_find?_eq_some hfree
    have hj' : j < st.bufs.length := by
      have := (hB _ hbnlt j hmem).1
      omega
    have hrc0 : (bufAt st j).refcnt = 0 := isFree_refcnt st j (List.find?_some hfree)
    refine Or.inr (Or.inl ⟨rfl, j, retagLocal st dev blockno j, rfl,
      bget_local st dev blockno j hfind hfree, hrc0, ?_, ?_, ?_, ?_, ?_, rfl, ?_⟩)
    · show (bufAt (setBuf st j _) j).dev = dev
      rw [bufAt_setBuf_self st j _ hj']
    · show (bufAt (setBuf st j _) j).blockno = blockno
      rw [bufAt_setBuf_self st j _ hj']
    · show (bufAt (setBuf st j _) j).valid = false
      rw [bufAt_setBuf_self st j _ hj']
    · show (bufAt (setBuf st j _) j).refcnt = 1
      rw [bufAt_setBuf_self st j _ hj']
    · show (bufAt (setBuf st j _) j).held = true
      rw [bufAt_setBuf_self st j _ hj']
    · intro x hx
      exact bufAt_setBuf_ne st j x _ (fun hh => hx hh.symm)
  | none =>
    rcases stealBuf_spec st dev blockno (blockno % NBUCKETS) NBUCKETS 0 with
      ⟨hn, hall⟩ | ⟨i₀, j, _, h2, h3, h4, h5, h6⟩
    · refine Or.inr (Or.inr (Or.inr ⟨rfl, rfl, fun i hi hne => hall i (Nat.zero_le i) (by omega) hne,
        (bget_steal st dev blockno hfind hfree).trans hn⟩))
    · have hi₀ : i₀ < NBUCKETS := by omega
      have hmem : j ∈ bucketAt st i₀ :=
        List.mem_reverse.1 (List.mem_of_find?_eq_some h4)
      have hj' : j < st.bufs.length := by
        have := (hB _ hi₀ j hmem).1
        omega
      have hrc0 : (bufAt st j).refcnt = 0 := isFree_refcnt st j (List.find?_some h4)
      refine Or.inr (Or.inr (Or.inl ⟨rfl, rfl, i₀, j, spliceRetag st dev blockno i₀ j,
        hi₀, h3, h4, fun i hi hne => h5 i (Nat.zero_le i) hi hne,
        (bget_steal st dev blockno hfind hfree).trans h6, hrc0,
        ?_, ?_, ?_, ?_, ?_, spliceRetag_bucket_home st dev blockno i₀ j hA2 h3,
        spliceRetag_bucket_foreign st dev blockno i₀ j hA2 hi₀ h3,
        fun i hilt hibn hii₀ => spliceRetag_bucket_other st dev blockno i₀ j i h3 hii₀ hibn,
        ?_⟩))
      · rw [spliceRetag_bufAt]
        show (bufAt (setBuf st j _) j).dev = dev
        rw [bufAt_setBuf_self st j _ hj']
      · rw [spliceRetag_bufAt]
        show (bufAt (setBuf st j _) j).blockno = blockno
        rw [bufAt_setBuf_self st j _ hj']
      · rw [spliceRetag_bufAt]
        show (bufAt (setBuf st j _) j).valid = false
        rw [bufAt_setBuf_self st j _ hj']
      · rw [spliceRetag_bufAt]
        show (bufAt (setBuf st j _) j).refcnt = 1
        rw [bufAt_setBuf_self st j _ hj']
      · rw [spliceRetag_bufAt]
        show (bufAt (setBuf st j _) j).held = true
        rw [bufAt_setBuf_self st j _ hj']
      · intro x hx
        rw [spliceRetag_bufAt]
        exact bufAt_setBuf_ne st j x _ (fun hh => hx hh.symm)

/-- Witness for C1 on the freshly initialized two-buffer cache. -/
theorem C1_bget_cases_witness :
    BcacheInv 2 (binit 2) ∧ BgetClaim (binit 2) 0 0 :=
  ⟨by decide, C1_bget_cases 2 (binit 2) 0 0 (by decide)⟩

/-- Witness for C4: an empty one-CPU allocator, and a one-buffer cache
whose only buffer is referenced while block (1,1) is requested. -/
theorem C4_exhaustion_asymmetry_witness :
    (([[]] : List (List Nat)).length = 1 ∧ 0 < 1 ∧
      (∀ i, i < 1 → ([[]] : List (List Nat)).getD i [] = []) ∧
      (bucketAt (refHit (binit 1) 0) (1 % NBUCKETS)).find?
        (isTag (refHit (binit 1) 0) 1 1) = none ∧
      (bucketAt (refHit (binit 1) 0) (1 % NBUCKETS)).find?
        (isFree (refHit (binit 1) 0)) = none ∧
      (∀ i, i < NBUCKETS → i ≠ 1 % NBUCKETS →
        (bucketAt (refHit (binit 1) 0) i).reverse.find? (isFree (refHit (binit 1) 0)) = none)) ∧
    (kalloc 1 ⟨[[]], fun _ => 0⟩ 0 = (none, ⟨[[]], fun _ => 0⟩) ∧
      bget (refHit (binit 1) 0) 1 1 = none) :=
  ⟨⟨rfl, by decide, by decide, by decide, by decide, by decide⟩,
    C4_exhaustion_asymmetry 1 ⟨[[]], fun _ => 0⟩ 0 1 1 (refHit (binit 1) 0)
      rfl (by decide) (by decide) (by decide) (by decide) (by decide)⟩

end OSLab
